import Mathlib

/-!
# A shallow embedding of `patch_toml.py`

This file embeds the format-preserving TOML patch engine
(`src/patch_toml.py`) in Lean 4 and proves the specification's claims
about it.  Python strings are modelled as `List Char`, documents as
lists of physical lines (each line keeping its trailing newline, as
produced by `str.splitlines(keepends=True)`), and fallible operations
return `Except`/`Option` where the source raises or exits.  Python's
`int` is `Int`; line indices inside `Header` are `Int` because the
synthetic root header uses `start_line = -1` in the source.
-/

deriving instance DecidableEq for Except

namespace PatchToml

/-- A Python string, modelled as its list of characters. -/
abbrev Str := List Char

/-- The whitespace set of Python's `str.strip()` and of `\s` in its
`re` patterns: U+0009–U+000D, U+001C–U+001F, space, NEL, NBSP, Ogham
space, the U+2000 range, and the other Unicode space characters. -/
def isPySpace (c : Char) : Bool :=
  c == ' ' || ('\x09' ≤ c && c ≤ '\x0d') || ('\x1c' ≤ c && c ≤ '\x1f') ||
  c == '\x85' || c == '\xa0' || c == '\u1680' || ('\u2000' ≤ c && c ≤ '\u200a') ||
  c == '\u2028' || c == '\u2029' || c == '\u202f' || c == '\u205f' || c == '\u3000'

/-- Python `s.lstrip()`. -/
def pyLStrip (s : Str) : Str := s.dropWhile isPySpace

/-- Python `s.rstrip()`. -/
def pyRStrip (s : Str) : Str := (s.reverse.dropWhile isPySpace).reverse

/-- Python `s.strip()`. -/
def pyStrip (s : Str) : Str := pyRStrip (pyLStrip s)

/-- `_is_comment_or_blank` from the source: the stripped line is empty
or starts with `#`. -/
def isCommentOrBlank (line : Str) : Bool :=
  match pyStrip line with
  | [] => true
  | c :: _ => c == '#'

/-- The line-boundary characters of Python `str.splitlines` (other
than the two-character boundary `\r\n`, handled separately). -/
def isLineBreakChar (c : Char) : Bool :=
  c == '\n' || c == '\x0d' || c == '\x0b' || c == '\x0c' ||
  c == '\x1c' || c == '\x1d' || c == '\x1e' || c == '\x85' || c == '\u2028' || c == '\u2029'

/-- Python `str.splitlines(keepends)`: `acc` is the reversed current
line. A `\r` immediately followed by `\n` is one boundary. -/
def splitlinesAux (keepends : Bool) : Str → Str → List Str
  | acc, [] => if acc.isEmpty then [] else [acc.reverse]
  | acc, '\x0d' :: '\n' :: rest =>
      (if keepends then (acc.reverse ++ ['\x0d', '\n']) else acc.reverse) ::
        splitlinesAux keepends [] rest
  | acc, c :: rest =>
      if isLineBreakChar c then
        (if keepends then (acc.reverse ++ [c]) else acc.reverse) :: splitlinesAux keepends [] rest
      else
        splitlinesAux keepends (c :: acc) rest

/-- Python `text.splitlines(keepends=True)`. -/
def splitlinesKeep (text : Str) : List Str := splitlinesAux true [] text

/-- Python `text.splitlines()`. -/
def splitlinesDrop (text : Str) : List Str := splitlinesAux false [] text

/-- `"".join(lines)`. -/
def joinAll (lines : List Str) : Str := lines.flatten

/-! ## Quote-Aware Scanner (`_split_path_tokens`, `_unquote_key`, …) -/

/-- The loop body of `_split_path_tokens`: `buf` is the current token
being accumulated (in order), `out` the tokens already emitted
(reversed at the end by the wrapper, kept in order here).  Inside
double quotes a backslash copies the next character verbatim; inside
single quotes nothing is special; an unquoted `.` emits the stripped
buffer (even when empty). -/
def splitPathTokensAux : Str → Bool → Bool → Str → List Str → List Str
  | [], _, _, buf, out =>
      let fin := pyStrip buf
      if fin.isEmpty then out else out ++ [fin]
  | c :: rest, true, inSq, buf, out =>
      -- in double quotes
      if c == '\\' then
        match rest with
        | c2 :: rest2 => splitPathTokensAux rest2 true inSq (buf ++ [c, c2]) out
        | [] => splitPathTokensAux [] true inSq (buf ++ [c]) out
      else if c == '"' then
        splitPathTokensAux rest false inSq (buf ++ [c]) out
      else
        splitPathTokensAux rest true inSq (buf ++ [c]) out
  | c :: rest, false, true, buf, out =>
      -- in single quotes
      if c == '\'' then
        splitPathTokensAux rest false false (buf ++ [c]) out
      else
        splitPathTokensAux rest false true (buf ++ [c]) out
  | c :: rest, false, false, buf, out =>
      if c == '"' then
        splitPathTokensAux rest true false (buf ++ [c]) out
      else if c == '\'' then
        splitPathTokensAux rest false true (buf ++ [c]) out
      else if c == '.' then
        splitPathTokensAux rest false false [] (out ++ [pyStrip buf])
      else
        splitPathTokensAux rest false false (buf ++ [c]) out

/-- `_split_path_tokens`: split a dotted path into raw segments,
respecting quoted keys. -/
def splitPathTokens (raw : Str) : List Str :=
  splitPathTokensAux (pyStrip raw) false false [] []

/-- The escape interpretation applied by `_unquote_key` inside a
double-quoted key: `\" \\ \b \t \n \r` map to their characters, any
other escaped character stands for itself; a trailing backslash
contributes nothing. -/
def unquoteDqBody : Str → Str
  | [] => []
  | '\\' :: [] => []
  | '\\' :: e :: rest =>
      (if e == '"' then '"'
       else if e == '\\' then '\\'
       else if e == 'b' then '\x08'
       else if e == 't' then '\t'
       else if e == 'n' then '\n'
       else if e == 'r' then '\x0d'
       else e) :: unquoteDqBody rest
  | c :: rest => c :: unquoteDqBody rest

/-- `_unquote_key`: strip surrounding quotes from a key token,
interpreting escapes only in the double-quoted form. -/
def unquoteKey (tok : Str) : Str :=
  let t := pyStrip tok
  match t with
  | [] => []
  | c :: _ =>
    if c == '"' && t.getLast? == some '"' then
      unquoteDqBody (t.drop 1).dropLast
    else if c == '\'' && t.getLast? == some '\'' then
      (t.drop 1).dropLast
    else t

example : splitPathTokens ("\"my.key\".child.grand".toList) =
    ["\"my.key\"".toList, "child".toList, "grand".toList] := by decide

example : unquoteKey ("\"a\\nb\"".toList) = "a\nb".toList := by decide
example : unquoteKey ("'my key'".toList) = "my key".toList := by decide
example : isCommentOrBlank ("   # hi\n".toList) = true := by decide
example : splitlinesKeep ("a\nb\x0d\n".toList) = ["a\n".toList, "b\x0d\n".toList] := by decide

/-! ## Path segments and CLI payload parsing -/

/-- `PathSegment` from the source (a frozen dataclass). -/
structure PathSegment where
  name : Str
  index : Option Nat := none
deriving DecidableEq, Repr

/-- Python's `$` anchor without `re.MULTILINE`: matches at the end of
the string or just before one final newline. -/
def endAnchor (cs : Str) : Bool := cs.isEmpty || cs == ['\n']

/-- `\d+` followed by the literal that closes `_INDEX_RE`: reads a
maximal nonempty digit run. -/
def takeDigits : Str → Str × Str
  | [] => ([], [])
  | c :: rest =>
      if c.isDigit then
        let (ds, r) := takeDigits rest
        (c :: ds, r)
      else ([], c :: rest)

/-- Digit characters to a natural number (`int(...)` on a digit run). -/
def digitsToNat (ds : Str) : Nat :=
  ds.foldl (fun acc c => 10 * acc + (c.toNat - 48)) 0

/-- Can `cs` be the `\[(?P<idx>\d+)\]$` tail of `_INDEX_RE`? -/
def idxSuffixAt (cs : Str) : Option Nat :=
  match cs with
  | '[' :: rest =>
      match takeDigits rest with
      | ([], _) => none
      | (ds, r) =>
          match r with
          | ']' :: r2 => if endAnchor r2 then some (digitsToNat ds) else none
          | _ => none
  | _ => none

/-- The lazy `(?P<name>.+?)` scan of `_INDEX_RE`: the shortest nonempty
newline-free prefix whose remainder is a `[digits]` tail. -/
def matchIndexAux : Str → Str → Option (Str × Nat)
  | _, [] => none
  | acc, c :: rest =>
      if c == '\n' then none
      else
        match idxSuffixAt rest with
        | some idx => some ((c :: acc).reverse, idx)
        | none => matchIndexAux (c :: acc) rest

/-- `parse_path_with_indices`: split a dotted path, recognising a
`name[index]` suffix on each token. -/
def parsePathWithIndices (path : Str) : List PathSegment :=
  (splitPathTokens path).map fun t0 =>
    let t := pyStrip t0
    match matchIndexAux [] t with
    | some (nm, idx) => ⟨unquoteKey (pyStrip nm), some idx⟩
    | none => ⟨unquoteKey t, none⟩

/-- The quote-toggling delimiter scan used twice by
`split_set_expression` (for `=` and for `#`): every quote character
flips its state (no escape handling there). -/
def findUnquoted (target : Char) : Str → Bool → Bool → Nat → Option Nat
  | [], _, _, _ => none
  | c :: rest, inDq, inSq, i =>
      if c == '"' && !inSq then findUnquoted target rest (!inDq) inSq (i + 1)
      else if c == '\'' && !inDq then findUnquoted target rest inDq (!inSq) (i + 1)
      else if c == target && !inDq && !inSq then some i
      else findUnquoted target rest inDq inSq (i + 1)

/-- `split_set_expression`: split a `--set` payload into
`(path, value_src, comment?)`; `none` models the `ValueError`s. -/
def splitSetExpression (s : Str) : Option (Str × Str × Option Str) :=
  match findUnquoted '=' s false false 0 with
  | none => none
  | some eqPos =>
      let path := pyStrip (s.take eqPos)
      let rhs := pyStrip (s.drop (eqPos + 1))
      if path.isEmpty then none
      else
        let valueComment :=
          match findUnquoted '#' rhs false false 0 with
          | some hp => (pyRStrip (rhs.take hp), some (pyStrip (rhs.drop (hp + 1))))
          | none => (rhs, none)
        if valueComment.1.isEmpty then none
        else some (path, valueComment.1, valueComment.2)

/-- `_find_equals_outside_quotes` (used by the assignment locator): a
`"` toggles unless the raw previous character is a backslash; `'`
toggles outside double quotes; `none` models the `-1` sentinel. -/
def findEqAux : Str → Option Char → Bool → Bool → Nat → Option Nat
  | [], _, _, _, _ => none
  | c :: rest, prev, inDq, inSq, i =>
      if c == '"' && !inSq then
        if i > 0 && prev == some '\\' then findEqAux rest (some c) inDq inSq (i + 1)
        else findEqAux rest (some c) (!inDq) inSq (i + 1)
      else if c == '\'' && !inDq then findEqAux rest (some c) inDq (!inSq) (i + 1)
      else if c == '=' && !inDq && !inSq then some i
      else findEqAux rest (some c) inDq inSq (i + 1)

/-- `_find_equals_outside_quotes`. -/
def findEqualsOutsideQuotes (line : Str) : Option Nat :=
  findEqAux line none false false 0

/-! ## Structural values and the Canonical Value Formatter -/

/-- The float tag of a Structural Value.  A finite float is abstracted
as its shortest round-tripping decimal `mantissa * 10 ^ exp10`, the
data Python's `repr` prints; the binary representation underneath is
out of the shallow embedding's reach. -/
inductive PyFloat where
  | nan
  | pinf
  | ninf
  | finite (mantissa : Int) (exp10 : Int)
deriving DecidableEq, Repr

/-- Structural Value: the tagged variant produced by the delegated
parser and consumed by `format_toml_value`.  Python's `datetime`
offset is in minutes (tomllib only builds whole-minute offsets). -/
inductive Value where
  | boolean (b : Bool)
  | integer (n : Int)
  | float (f : PyFloat)
  | string (s : Str)
  | date (y mo d : Nat)
  | time (h mi s us : Nat)
  | datetime (y mo d h mi s us : Nat) (tzMinutes : Option Int)
  | array (vs : List Value)
  | table (kvs : List (Str × Value))
deriving Repr

/-- Decimal digits of a natural number (`str` on a non-negative int). -/
def natDec (n : Nat) : Str := Nat.toDigits 10 n

/-- Python `str` on an int. -/
def intDec (i : Int) : Str :=
  if i < 0 then '-' :: natDec i.natAbs else natDec i.natAbs

/-- Zero-pad to two digits. -/
def pad2 (n : Nat) : Str := if n < 10 then '0' :: natDec n else natDec n

/-- Zero-pad to four digits. -/
def pad4 (n : Nat) : Str :=
  let d := natDec n
  List.replicate (4 - d.length) '0' ++ d

/-- Zero-pad to six digits. -/
def pad6 (n : Nat) : Str :=
  let d := natDec n
  List.replicate (6 - d.length) '0' ++ d

/-- Modelled from the spec: “the shortest round-tripping decimal
representation, using exponential notation only if the underlying
numeric library's default textual form already contains an exponent
marker” — Python's `repr` of a finite float (which `str` equals on
Python 3, so the source's `repr(obj) if "e" in repr(obj) else
str(obj)` is this function in both branches).  Exponential form is
used when the scientific exponent is below `-4` or at least `16`,
with a sign and at least two exponent digits. -/
def pyFloatRepr (m : Int) (e : Int) : Str :=
  if m = 0 then "0.0".toList
  else
    let ds := natDec m.natAbs
    let sciExp : Int := e + ds.length - 1
    let core :=
      if -4 ≤ sciExp ∧ sciExp < 16 then
        if 0 ≤ e then ds ++ List.replicate e.toNat '0' ++ ".0".toList
        else
          let frac := (-e).toNat
          if frac < ds.length then
            ds.take (ds.length - frac) ++ '.' :: ds.drop (ds.length - frac)
          else
            "0.".toList ++ List.replicate (frac - ds.length) '0' ++ ds
      else
        let mant :=
          match ds with
          | [d] => [d]
          | d :: rest => d :: '.' :: rest
          | [] => []
        let eabs := natDec sciExp.natAbs
        ((mant ++ ['e', if sciExp < 0 then '-' else '+']) ++
          if eabs.length < 2 then '0' :: eabs else eabs)
    if m < 0 then '-' :: core else core

/-- `_escape_string` applied to each character of the body. -/
def escapeStringBody : Str → Str
  | [] => []
  | c :: rest =>
      (if c == '\\' then ['\\', '\\']
       else if c == '"' then ['\\', '"']
       else if c == '\x08' then ['\\', 'b']
       else if c == '\t' then ['\\', 't']
       else if c == '\n' then ['\\', 'n']
       else if c == '\x0d' then ['\\', 'r']
       else [c]) ++ escapeStringBody rest

/-- `_escape_string`: double-quote a string, escaping backslash,
double quote, backspace, tab, newline and carriage return only. -/
def escapeString (s : Str) : Str := '"' :: (escapeStringBody s ++ ['"'])

/-- The character class of `_BARE_KEY_RE`. -/
def isBareKeyChar (c : Char) : Bool :=
  ('A' ≤ c && c ≤ 'Z') || ('a' ≤ c && c ≤ 'z') || c.isDigit || c == '_' || c == '-'

/-- `_BARE_KEY_RE.match(seg)`: `^[A-Za-z0-9_-]+$`, where `$` also
matches just before one final newline. -/
def isBareKey (s : Str) : Bool :=
  let core := if s.getLast? == some '\n' then s.dropLast else s
  !core.isEmpty && core.all isBareKeyChar

/-- `_format_key_segment`. -/
def formatKeySegment (seg : Str) : Str :=
  if isBareKey seg then seg else escapeString seg

/-- Python `time.isoformat()` / the time part of `datetime.isoformat()`. -/
def isoTime (h mi s us : Nat) : Str :=
  pad2 h ++ ':' :: pad2 mi ++ ':' :: pad2 s ++
    (if us == 0 then [] else '.' :: pad6 us)

/-- Python `date.isoformat()`. -/
def isoDate (y mo d : Nat) : Str :=
  pad4 y ++ '-' :: pad2 mo ++ '-' :: pad2 d

/-- The UTC-offset suffix Python's `datetime.isoformat()` appends for
an aware datetime (whole-minute offsets, as tomllib produces). -/
def isoOffset : Option Int → Str
  | none => []
  | some tz =>
      (if tz < 0 then '-' else '+') ::
        (pad2 (tz.natAbs / 60) ++ ':' :: pad2 (tz.natAbs % 60))

mutual

/-- `format_toml_value`: render a Structural Value as single-line
canonical TOML text.  The source tests `bool` before `int` (Python
`bool` is an `int` subclass); the tagged variant separates them.  The
source's unreachable fallback branch (`_escape_string(str(obj))`) has
no counterpart here because every constructor is handled. -/
def formatTomlValue : Value → Str
  | .boolean b => if b then "true".toList else "false".toList
  | .integer n => intDec n
  | .float .nan => "nan".toList
  | .float .pinf => "inf".toList
  | .float .ninf => "-inf".toList
  | .float (.finite m e) => pyFloatRepr m e
  | .string s => escapeString s
  | .date y mo d => isoDate y mo d
  | .time h mi s us => isoTime h mi s us
  | .datetime y mo d h mi s us tz =>
      isoDate y mo d ++ 'T' :: (isoTime h mi s us ++ isoOffset tz)
  | .table kvs => "\x7b ".toList ++ (List.intercalate ", ".toList (formatTableItems kvs) ++ " \x7d".toList)
  | .array vs => '[' :: (List.intercalate ", ".toList (formatArrayItems vs) ++ [']'])

/-- The comma-joined items of an array. -/
def formatArrayItems : List Value → List Str
  | [] => []
  | v :: rest => formatTomlValue v :: formatArrayItems rest

/-- The comma-joined `key = value` items of an inline table. -/
def formatTableItems : List (Str × Value) → List Str
  | [] => []
  | (k, v) :: rest =>
      (formatKeySegment k ++ " = ".toList ++ formatTomlValue v) :: formatTableItems rest

end

example : formatTomlValue (.integer (-7)) = "-7".toList := by decide
example : formatTomlValue (.float (.finite 15 (-1))) = "1.5".toList := by decide
example : formatTomlValue (.float (.finite 1 16)) = "1e+16".toList := by decide
example : formatTomlValue (.float (.finite 1 (-5))) = "1e-05".toList := by decide
example : formatTomlValue (.float (.finite 1 (-4))) = "0.0001".toList := by decide
example : formatTomlValue (.string "a\"b\\c".toList) = "\"a\\\"b\\\\c\"".toList := by decide
example : formatTomlValue (.array [.boolean true, .integer 2]) = "[true, 2]".toList := by decide
example : formatTomlValue (.table [("a b".toList, .integer 1)]) =
    "\x7b \"a b\" = 1 \x7d".toList := by decide
example : formatTomlValue (.datetime 2020 1 2 3 4 5 0 (some (-330))) =
    "2020-01-02T03:04:05-05:30".toList := by decide

/-! ## The delegated parser's basic-string rule

The value parser itself is an external collaborator (`tomllib`), out
of `src/`; the spec pins it down as a standard TOML-object parser.
The rules below model the part the round-trip claim turns on: TOML
basic strings. -/

/-- Modelled from the spec: a character a standard TOML parser accepts
unescaped inside a `"…"` basic string (TOML 1.0 `basic-unescaped`):
space, tab, printable ASCII other than `"` and `\`, and non-ASCII
scalars.  Control characters U+0000–U+0008, U+000A–U+001F and U+007F
must be escaped. -/
def isTomlBasicUnescaped (c : Char) : Bool :=
  c == ' ' || c == '\t' || c == '\x21' ||
  ('\x23' ≤ c && c ≤ '\x5b') || ('\x5d' ≤ c && c ≤ '\x7e') ||
  '\x80' ≤ c

/-- Hexadecimal digit value. -/
def hexVal (c : Char) : Option Nat :=
  let n := c.toNat
  if 48 ≤ n ∧ n ≤ 57 then some (n - 48)
  else if 97 ≤ n ∧ n ≤ 102 then some (n - 87)
  else if 65 ≤ n ∧ n ≤ 70 then some (n - 55)
  else none

/-- A Unicode scalar from an escape's hex digits, when valid. -/
def scalarOfHex (ds : Str) : Option Char :=
  match ds.mapM hexVal with
  | none => none
  | some vs =>
      let n := vs.foldl (fun acc v => acc * 16 + v) 0
      if h : n.isValidChar then some (Char.ofNatAux n h) else none

/-- Modelled from the spec: the body of a TOML basic string after the
opening quote.  Recognised escapes are `\b \t \n \f \r \" \\ \uXXXX
\UXXXXXXXX`; anything else after a backslash, and any unescaped
control character, is a parse error.  Returns the decoded content and
the input remaining after the closing quote. -/
def parseBasicStringAux : Str → Str → Option (Str × Str)
  | _, [] => none
  | acc, '"' :: rest => some (acc.reverse, rest)
  | acc, '\\' :: rest =>
      match rest with
      | 'b' :: r => parseBasicStringAux ('\x08' :: acc) r
      | 't' :: r => parseBasicStringAux ('\t' :: acc) r
      | 'n' :: r => parseBasicStringAux ('\n' :: acc) r
      | 'f' :: r => parseBasicStringAux ('\x0c' :: acc) r
      | 'r' :: r => parseBasicStringAux ('\x0d' :: acc) r
      | '"' :: r => parseBasicStringAux ('"' :: acc) r
      | '\\' :: r => parseBasicStringAux ('\\' :: acc) r
      | 'u' :: h1 :: h2 :: h3 :: h4 :: r =>
          match scalarOfHex [h1, h2, h3, h4] with
          | some c => parseBasicStringAux (c :: acc) r
          | none => none
      | 'U' :: h1 :: h2 :: h3 :: h4 :: h5 :: h6 :: h7 :: h8 :: r =>
          match scalarOfHex [h1, h2, h3, h4, h5, h6, h7, h8] with
          | some c => parseBasicStringAux (c :: acc) r
          | none => none
      | _ => none
  | acc, c :: rest =>
      if isTomlBasicUnescaped c then parseBasicStringAux (c :: acc) rest else none

/-- Modelled from the spec: parsing a whole value literal that is a
TOML basic string (the delegated parser on `__k__ = "…"`). -/
def parseTomlBasicString (s : Str) : Option Str :=
  match s with
  | '"' :: rest =>
      match parseBasicStringAux [] rest with
      | some (content, []) => some content
      | _ => none
  | _ => none

example : parseTomlBasicString ("\"a\\u0001b\"".toList) = some ['a', '\x01', 'b'] := by decide
example : parseTomlBasicString (escapeString "a\"b\\c\nd".toList) = some "a\"b\\c\nd".toList := by
  decide

/-! ## Header Indexer -/

/-- The header kinds (`'root'`, `'table'`, `'aot'`). -/
inductive HKind where
  | root
  | table
  | aot
deriving DecidableEq, Repr

/-- `Header` from the source.  `startLine` is `Int` because the root
pseudo-header carries `start_line = -1`. -/
structure Header where
  kind : HKind
  path : List Str
  aotIndex : Option Nat
  startLine : Int
  endLine : Int
deriving DecidableEq, Repr

/-- `Header.id_segments`. -/
def Header.idSegments (h : Header) : List PathSegment :=
  match h.kind with
  | .aot =>
      match h.path.getLast? with
      | some lastName => h.path.dropLast.map (fun s => ⟨s, none⟩) ++ [⟨lastName, h.aotIndex⟩]
      | none => [] ++ [⟨[], h.aotIndex⟩]   -- `path[-1]` on an empty path cannot occur
  | .table => h.path.map fun s => ⟨s, none⟩
  | .root => []

/-- The `\s*(?:#.*)?$` tail common to both header patterns: optional
whitespace, then optionally `#` and a newline-free run, then the end
anchor. -/
def headerTailMatch (cs : Str) : Bool :=
  let r := cs.dropWhile isPySpace
  endAnchor r ||
    (match r with
     | '#' :: rest => endAnchor (rest.dropWhile (fun c => c != '\n'))
     | _ => false)

/-- The lazy `(?P<body>.+?)\]` scan of `_HEADER_TABLE_RE`: shortest
nonempty newline-free prefix followed by `]` and a matching tail. -/
def lazyBodyTable : Str → Str → Option Str
  | _, [] => none
  | acc, c :: rest =>
      if !acc.isEmpty && c == ']' && headerTailMatch rest then some acc.reverse
      else if c == '\n' then none
      else lazyBodyTable (c :: acc) rest

/-- The lazy `(?P<body>.+?)\]\]` scan of `_HEADER_AOT_RE`. -/
def lazyBodyAot : Str → Str → Option Str
  | _, [] => none
  | acc, c :: rest =>
      if !acc.isEmpty && c == ']' then
        match rest with
        | ']' :: rest2 =>
            if headerTailMatch rest2 then some acc.reverse
            else if c == '\n' then none
            else lazyBodyAot (c :: acc) rest
        | _ =>
            if c == '\n' then none
            else lazyBodyAot (c :: acc) rest
      else if c == '\n' then none
      else lazyBodyAot (c :: acc) rest

/-- `_parse_header_line`: try the single-bracket pattern (with its
`(?!\[)` lookahead), then the double-bracket one; split and unquote
the bracket body. -/
def parseHeaderLine (line : Str) : Option (HKind × List Str) :=
  match line.dropWhile isPySpace with
  | '[' :: rest =>
      match rest with
      | '[' :: rest2 =>
          (lazyBodyAot [] rest2).map fun body =>
            (.aot, (splitPathTokens (pyStrip body)).map unquoteKey)
      | _ =>
          (lazyBodyTable [] rest).map fun body =>
            (.table, (splitPathTokens (pyStrip body)).map unquoteKey)
  | _ => none

example : parseHeaderLine ("[servers]\n".toList) = some (.table, ["servers".toList]) := by decide
example : parseHeaderLine ("  [[a.b]] # hi\n".toList) =
    some (.aot, ["a".toList, "b".toList]) := by decide
example : parseHeaderLine ("x = [1]\n".toList) = none := by decide
example : parseHeaderLine ("[a]b]\n".toList) = some (.table, ["a]b".toList]) := by decide

/-- The scanning pass of `index_headers`: walk the lines from index
`i`, keeping the per-path array-of-tables counter as a function
(Python's `aot_counters` dict with default `0`). -/
def indexHeadersPass1 : List Str → Nat → (List Str → Nat) → List Header
  | [], _, _ => []
  | line :: rest, i, counters =>
      match parseHeaderLine line with
      | none => indexHeadersPass1 rest (i + 1) counters
      | some (.aot, path) =>
          let idx := counters path
          ⟨.aot, path, some idx, (i : Int), (i : Int)⟩ ::
            indexHeadersPass1 rest (i + 1) (fun k => if k = path then idx + 1 else counters k)
      | some (_, path) =>
          ⟨.table, path, none, (i : Int), (i : Int)⟩ :: indexHeadersPass1 rest (i + 1) counters

/-- The backward walk of `index_headers`: step `j` down while it is
above `start` and line `j` is blank or comment-only.  (In the source
`j` is always a valid index here; `getD` with a blank default keeps
the function total.) -/
def trimBackF (lines : List Str) (start : Int) : Nat → Int → Int
  | 0, j => j
  | fuel + 1, j =>
      if start < j ∧ isCommentOrBlank (lines.getD j.toNat []) = true then
        trimBackF lines start fuel (j - 1)
      else j

/-- `trimBack lines start j` runs the walk down from `j`; the fuel
`(j - start).toNat` bounds the number of steps the source loop can
take, so the two agree. -/
def trimBack (lines : List Str) (start : Int) (j : Int) : Int :=
  trimBackF lines start (j - start).toNat j

/-- The end-computation pass of `index_headers`: each header's end is
the line before the next header's start (document end for the last),
and non-root headers are then trimmed backward past blank/comment
lines.  The root header keeps the untrimmed end (the source's
`continue`). -/
def computeEnds (lines : List Str) : List Header → List Header
  | [] => []
  | h :: rest =>
      let nextStart : Int :=
        match rest with
        | [] => (lines.length : Int)
        | h2 :: _ => h2.startLine
      let e := nextStart - 1
      let newEnd := if h.kind = .root then e else trimBack lines h.startLine e
      { h with endLine := newEnd } :: computeEnds lines rest

/-- The root pseudo-header pushed first by `index_headers`. -/
def rootHeaderInit : Header := ⟨.root, [], none, -1, -1⟩

/-- `index_headers`. -/
def indexHeaders (lines : List Str) : List Header :=
  computeEnds lines (rootHeaderInit :: indexHeadersPass1 lines 0 (fun _ => 0))

/-- The two exception kinds of the resolvers: `KeyError` (path not
found, exit 2 at the call sites) and `RuntimeError` (ambiguous path,
exit 3). -/
inductive ResolveErr where
  | pathNotFound
  | ambiguous
deriving DecidableEq, Repr

/-- `find_section_block`: map a table path to its header and owned
content span.  The unreachable `RuntimeError("root header missing")`
is folded into `.ambiguous`, the bucket its callers give
`RuntimeError`. -/
def findSectionBlock (headers : List Header) (target : List PathSegment) :
    Except ResolveErr (Header × Int × Int) :=
  match target.getLast? with
  | none =>
      match headers.find? (fun h => h.kind == .root) with
      | some h => .ok (h, h.startLine + 1, h.endLine)
      | none => .error .ambiguous
  | some lastSeg =>
      match lastSeg.index with
      | some wantedIdx =>
          let tablePath := target.dropLast.map (·.name) ++ [lastSeg.name]
          match headers.filter
              (fun h => h.kind == .aot && h.path == tablePath && h.aotIndex == some wantedIdx) with
          | [] => .error .pathNotFound
          | h :: _ => .ok (h, h.startLine + 1, h.endLine)
      | none =>
          let tablePath := target.map (·.name)
          match headers.filter (fun h => h.kind == .table && h.path == tablePath) with
          | h :: _ => .ok (h, h.startLine + 1, h.endLine)
          | [] =>
              match headers.filter (fun h => h.kind == .aot && h.path == tablePath) with
              | [] => .error .pathNotFound
              | [h] => .ok (h, h.startLine + 1, h.endLine)
              | _ :: _ :: _ => .error .ambiguous

/-! ## Value-Boundary Scanner -/

/-- The scan state of `_value_block_end`: two nesting depths and the
four string-state flags. -/
structure ScanSt where
  dsq : Nat
  dcu : Nat
  inDq : Bool
  inSq : Bool
  inTdq : Bool
  inTsq : Bool
deriving DecidableEq, Repr

/-- The starting state: depths zero, no string open. -/
def ScanSt.init : ScanSt := ⟨0, 0, false, false, false, false⟩

/-- The end-of-line test of `_value_block_end`: both depths zero and
no string state open. -/
def ScanSt.closed (st : ScanSt) : Bool :=
  st.dsq == 0 && st.dcu == 0 && !(st.inDq || st.inSq || st.inTdq || st.inTsq)

/-- The inner character loop of `_value_block_end` over one line's
text.  `none` models the early `return i` on an unquoted `#` at both
depths zero; `some st` is the state at the end of the line.  A `]` or
`}` at depth zero is ignored, exactly as the source's `if depth > 0`
guard (and as `Nat` subtraction would floor).  Inside a plain
double-quoted string a backslash skips the following character
unconditionally (`j += 2`). -/
def scanLineF : Nat → ScanSt → Str → Option ScanSt
  | _, st, [] => some st
  | 0, st, _ :: _ => some st
  | fuel + 1, st, c :: rest =>
      if st.inTdq then
        match c, rest with
        | '"', '"' :: '"' :: r2 => scanLineF fuel { st with inTdq := false } r2
        | _, _ => scanLineF fuel st rest
      else if st.inTsq then
        match c, rest with
        | '\'', '\'' :: '\'' :: r2 => scanLineF fuel { st with inTsq := false } r2
        | _, _ => scanLineF fuel st rest
      else if st.inDq then
        if c == '\\' then
          match rest with
          | _ :: r2 => scanLineF fuel st r2
          | [] => some st
        else if c == '"' then scanLineF fuel { st with inDq := false } rest
        else scanLineF fuel st rest
      else if st.inSq then
        if c == '\'' then scanLineF fuel { st with inSq := false } rest
        else scanLineF fuel st rest
      else
        match c, rest with
        | '"', '"' :: '"' :: r2 => scanLineF fuel { st with inTdq := true } r2
        | '\'', '\'' :: '\'' :: r2 => scanLineF fuel { st with inTsq := true } r2
        | _, _ =>
            if c == '"' then scanLineF fuel { st with inDq := true } rest
            else if c == '\'' then scanLineF fuel { st with inSq := true } rest
            else if c == '[' then scanLineF fuel { st with dsq := st.dsq + 1 } rest
            else if c == ']' then
              scanLineF fuel { st with dsq := if st.dsq > 0 then st.dsq - 1 else st.dsq } rest
            else if c == '{' then scanLineF fuel { st with dcu := st.dcu + 1 } rest
            else if c == '}' then
              scanLineF fuel { st with dcu := if st.dcu > 0 then st.dcu - 1 else st.dcu } rest
            else if c == '#' && st.dsq == 0 && st.dcu == 0 then none
            else scanLineF fuel st rest

/-- `scanLineChars st s` runs the character loop over the whole line:
each step consumes at least one character, so `s.length` steps always
reach the end of the line and the fuel pattern never cuts the loop
short. -/
def scanLineChars (st : ScanSt) (s : Str) : Option ScanSt :=
  scanLineF s.length st s

/-- `advance_line_text`: on the start line the value begins at
`startCol` (right after `=`); later lines are scanned whole. -/
def lineTextAt (lines : List Str) (startLine startCol i : Nat) : Str :=
  let l := lines.getD i []
  if i = startLine then l.drop startCol else l

/-- The outer line loop of `_value_block_end`, with fuel bounding the
remaining iterations (one line per step). -/
def vbeAuxF (lines : List Str) (startLine startCol : Nat) : Nat → Nat → ScanSt → Nat
  | 0, _, _ => lines.length - 1
  | fuel + 1, i, st =>
      if i < lines.length then
        match scanLineChars st (lineTextAt lines startLine startCol i) with
        | none => i
        | some st2 =>
            if st2.closed then i else vbeAuxF lines startLine startCol fuel (i + 1) st2
      else lines.length - 1

/-- The outer line loop of `_value_block_end`: fuel
`lines.length - i` covers every iteration the source's
`while i < len(lines)` can make, and when it runs out `i` has reached
`len(lines)`, the case where the source also returns `len - 1`. -/
def vbeAux (lines : List Str) (startLine startCol i : Nat) (st : ScanSt) : Nat :=
  vbeAuxF lines startLine startCol (lines.length - i) i st

/-- `_value_block_end`: the 0-based inclusive index of the line on
which the value starting at `(startLine, startCol)` ends. -/
def valueBlockEnd (lines : List Str) (startLine startCol : Nat) : Nat :=
  vbeAux lines startLine startCol startLine .init

example : valueBlockEnd ["v = [1,\n".toList, " 2] # x\n".toList, "b = 2\n".toList] 0 3 = 1 := by
  decide
example : valueBlockEnd ["v = \"\"\"a\n".toList, "b\"\"\"\n".toList] 0 3 = 1 := by decide
example : valueBlockEnd ["v = 1 # c [\n".toList, "x\n".toList] 0 3 = 0 := by decide
example : valueBlockEnd ["v = [\n".toList] 0 3 = 0 := by decide

example :
    indexHeaders ["# c\n".toList, "[a]\n".toList, "x = 1\n".toList, "\n".toList,
      "[[b]]\n".toList, "y = 2\n".toList] =
    [⟨.root, [], none, -1, 0⟩, ⟨.table, ["a".toList], none, 1, 2⟩,
     ⟨.aot, ["b".toList], some 0, 4, 5⟩] := by decide

/-! ## Path Resolver / Assignment Locator -/

/-- `_parse_assignment_key_segments`: the left-hand side of an
assignment, split on unquoted dots and unquoted. -/
def parseAssignmentKeySegments (lhs : Str) : Option (List Str) :=
  let l := pyStrip lhs
  match l with
  | [] => none
  | '#' :: _ => none
  | _ => some ((splitPathTokens l).map unquoteKey)

/-- `_segments_equal`: structural equality of segment lists (same
length, names and indices). -/
def segmentsEqual (a b : List PathSegment) : Bool := a == b

/-- The match-collecting loop of `find_assignment_block_by_full_path`:
walk lines `i ≤ endL` (and `i < len(lines)`), skipping blank, comment
and header lines; on each remaining line find the unquoted `=`, parse
the left-hand side, and record `(i, value end line, key segments)`
when the header's identity plus the local key equals the requested
path.  The source's `if not ksegs` skips both `None` and an empty
list.  Fuel counts the remaining lines. -/
def collectMatchesF (lines : List Str) (header : Header) (fullPath : List PathSegment)
    (endL : Int) : Nat → Nat → List (Nat × Nat × List Str)
  | 0, _ => []
  | fuel + 1, i =>
      if (i : Int) ≤ endL ∧ i < lines.length then
        if (pyLStrip (lines.getD i [])).isEmpty
            || (pyLStrip (lines.getD i [])).headD ' ' == '#'
            || (pyLStrip (lines.getD i [])).headD ' ' == '[' then
          collectMatchesF lines header fullPath endL fuel (i + 1)
        else
          match findEqualsOutsideQuotes (lines.getD i []) with
          | none => collectMatchesF lines header fullPath endL fuel (i + 1)
          | some eqPos =>
              match parseAssignmentKeySegments ((lines.getD i []).take eqPos) with
              | none => collectMatchesF lines header fullPath endL fuel (i + 1)
              | some [] => collectMatchesF lines header fullPath endL fuel (i + 1)
              | some ksegs =>
                  if segmentsEqual (header.idSegments ++ ksegs.map (fun n => ⟨n, none⟩))
                      fullPath then
                    (i, valueBlockEnd lines i (eqPos + 1), ksegs) ::
                      collectMatchesF lines header fullPath endL fuel (i + 1)
                  else collectMatchesF lines header fullPath endL fuel (i + 1)
      else []

/-- The collecting loop started at `i`; `lines.length - i` fuel covers
every iteration of the source's `while i <= end and i < len(lines)`. -/
def collectMatches (lines : List Str) (header : Header) (fullPath : List PathSegment)
    (endL : Int) (i : Nat) : List (Nat × Nat × List Str) :=
  collectMatchesF lines header fullPath endL (lines.length - i) i

/-- `find_assignment_block_by_full_path`: the resolved assignment's
inclusive `[startLine, endLine]` span and its key segments. -/
def findAssignmentBlock (lines : List Str) (headers : List Header)
    (fullPath : List PathSegment) : Except ResolveErr (Nat × Nat × List Str) :=
  match fullPath.getLast? with
  | none => .error .pathNotFound
  | some _ =>
      let tablePath := fullPath.dropLast
      match findSectionBlock headers tablePath with
      | .error e => .error e
      | .ok (header, start, endL) =>
          let ms := collectMatches lines header fullPath endL (max start 0).toNat
          match ms with
          | [] =>
              match tablePath.getLast? with
              | some seg =>
                  if seg.index = none then
                    let tp := tablePath.map (·.name)
                    if 1 < (headers.filter (fun h => h.kind == .aot && h.path == tp)).length
                    then .error .ambiguous
                    else .error .pathNotFound
                  else .error .pathNotFound
              | none => .error .pathNotFound
          | [m] => .ok m
          | _ :: _ :: _ => .error .ambiguous

/-! ## Patch operations -/

/-- `SetPatch` from the source. -/
structure SetPatch where
  path : List PathSegment
  valueSrc : Str
  valueObj : Value
  comment : Option Str

/-- `apply_set`: replace the resolved span with one freshly rendered
assignment line.  The source's `sys.exit(2)`/`sys.exit(3)` at the two
`except` arms become the `Except` error results. -/
def applySet (lines : List Str) (p : SetPatch) : Except ResolveErr (List Str) :=
  let headers := indexHeaders lines
  match findAssignmentBlock lines headers p.path with
  | .error e => .error e
  | .ok (start, endB, ksegs) =>
      let lhs := List.intercalate ['.'] (ksegs.map formatKeySegment)
      let rhs := formatTomlValue p.valueObj
      let newLine :=
        match p.comment with
        | some c =>
            if c.isEmpty then lhs ++ " = ".toList ++ rhs ++ ['\n']
            else lhs ++ " = ".toList ++ rhs ++ " # ".toList ++ c ++ ['\n']
        | none => lhs ++ " = ".toList ++ rhs ++ ['\n']
      .ok (lines.take start ++ [newLine] ++ lines.drop (endB + 1))

/-- `apply_delete_key`: remove the resolved span. -/
def applyDeleteKey (lines : List Str) (path : List PathSegment) :
    Except ResolveErr (List Str) :=
  let headers := indexHeaders lines
  match findAssignmentBlock lines headers path with
  | .error e => .error e
  | .ok (start, endB, _) => .ok (lines.take start ++ lines.drop (endB + 1))

/-- The error outcomes of one whole run (`main` after a readable
input): exit 1 invalid document, exit 2 path not found, exit 3
ambiguous, exit 4 invalid payload, and exit 4 again for the refusal to
delete the root section. -/
inductive RunErr where
  | invalidDocument
  | pathNotFound
  | ambiguous
  | invalidPayload
  | rootDeletionRefused
deriving DecidableEq, Repr

/-- `ResolveErr` as the exit it triggers in `main`. -/
def ResolveErr.toRunErr : ResolveErr → RunErr
  | .pathNotFound => .pathNotFound
  | .ambiguous => .ambiguous

/-- `apply_delete_section`: remove the header line through the
trimmed owned end; deleting the root is refused. -/
def applyDeleteSection (lines : List Str) (path : List PathSegment) :
    Except RunErr (List Str) :=
  let headers := indexHeaders lines
  match findSectionBlock headers path with
  | .error e => .error e.toRunErr
  | .ok (header, _, endL) =>
      if header.kind = .root then .error .rootDeletionRefused
      else .ok (lines.take header.startLine.toNat ++ lines.drop (endL + 1).toNat)

/-! ## Top-of-file comment replacement -/

/-- The leading scan of `replace_top_comment_block`: how many leading
lines are blank or comment-only (the same test as
`_is_comment_or_blank`). -/
def leadRunLen : List Str → Nat
  | [] => 0
  | l :: rest => if isCommentOrBlank l then leadRunLen rest + 1 else 0

/-- One replacement line: blank input lines become a bare `#`,
non-blank ones are right-stripped and prefixed with `# `. -/
def renderCommentLine (raw : Str) : Str :=
  if (pyStrip raw).isEmpty then "#\n".toList
  else "# ".toList ++ (pyRStrip raw ++ ['\n'])

/-- `replace_top_comment_block`. -/
def replaceTopCommentBlock (text : Str) (newText : Str) : Str :=
  let lines := splitlinesKeep text
  let i := leadRunLen lines
  joinAll (((splitlinesDrop newText).map renderCommentLine ++ ["\n".toList]) ++ lines.drop i)

example :
    replaceTopCommentBlock "# old\n\nkey = 1\n".toList "new header".toList =
      "# new header\n\nkey = 1\n".toList := by decide

/-! ## The driver (`main` between reading and writing)

File reading/writing and `argparse` stay outside the embedding.  The
two delegated `tomllib` capabilities are parameters: `parseValue`
models `parse_toml_value` (`none` is its `ValueError`) and `validDoc`
models `validate_toml_document`.  An `.ok` result is exactly the text
`main` writes to the output file; an `.error` is the early exit with
the corresponding code, with whatever partially patched line list was
reached discarded by construction. -/

/-- The payload-parsing part of `main`'s `--set` loop:
`split_set_expression`, `parse_path_with_indices`,
`parse_toml_value`; any failure is the `ValueError` handler (exit
4). -/
def mkSetPatch (parseValue : Str → Option Value) (spec : Str) : Option SetPatch :=
  match splitSetExpression spec with
  | none => none
  | some (pathStr, valueSrc, comment) =>
      match parseValue valueSrc with
      | none => none
      | some v => some ⟨parsePathWithIndices pathStr, valueSrc, v, comment⟩

/-- One iteration of `main`'s `--set` loop: parse the payload (exit 4
on a `ValueError`) and apply the patch (exit 2/3 from inside
`apply_set`). -/
def setStep (parseValue : Str → Option Value) (lines : List Str) (spec : Str) :
    Except RunErr (List Str) :=
  match mkSetPatch parseValue spec with
  | none => .error .invalidPayload
  | some p =>
      match applySet lines p with
      | .error e => .error e.toRunErr
      | .ok lines2 => .ok lines2

/-- `main`'s `--set` loop. -/
def applySetsLoop (parseValue : Str → Option Value) :
    List Str → List Str → Except RunErr (List Str)
  | lines, [] => .ok lines
  | lines, spec :: rest =>
      match setStep parseValue lines spec with
      | .error e => .error e
      | .ok lines2 => applySetsLoop parseValue lines2 rest

/-- One iteration of `main`'s `--delete-key` loop
(`parse_path_with_indices` cannot raise, so the payload-error arm of
the source is dead there). -/
def keyStep (lines : List Str) (pth : Str) : Except RunErr (List Str) :=
  match applyDeleteKey lines (parsePathWithIndices pth) with
  | .error e => .error e.toRunErr
  | .ok lines2 => .ok lines2

/-- `main`'s `--delete-key` loop. -/
def applyDelKeysLoop : List Str → List Str → Except RunErr (List Str)
  | lines, [] => .ok lines
  | lines, pth :: rest =>
      match keyStep lines pth with
      | .error e => .error e
      | .ok lines2 => applyDelKeysLoop lines2 rest

/-- One iteration of `main`'s `--delete-section` loop. -/
def secStep (lines : List Str) (pth : Str) : Except RunErr (List Str) :=
  applyDeleteSection lines (parsePathWithIndices pth)

/-- `main`'s `--delete-section` loop. -/
def applyDelSecsLoop : List Str → List Str → Except RunErr (List Str)
  | lines, [] => .ok lines
  | lines, pth :: rest =>
      match secStep lines pth with
      | .error e => .error e
      | .ok lines2 => applyDelSecsLoop lines2 rest

/-- The line list the patch groups start from: the input text, with
the top comment replaced when requested, split into physical lines. -/
def startLines (text : Str) (topComment : Option Str) : List Str :=
  splitlinesKeep
    (match topComment with
     | some t => replaceTopCommentBlock text t
     | none => text)

/-- One whole run of `main` on an already-read input `text`: validate,
optionally replace the top comment, then the three patch groups in
their fixed order, then (only on success) produce the output text. -/
def runPatch (parseValue : Str → Option Value) (validDoc : Str → Bool) (text : Str)
    (sets delKeys delSecs : List Str) (topComment : Option Str) : Except RunErr Str :=
  if !validDoc text then .error .invalidDocument
  else
    match applySetsLoop parseValue (startLines text topComment) sets with
    | .error e => .error e
    | .ok l1 =>
        match applyDelKeysLoop l1 delKeys with
        | .error e => .error e
        | .ok l2 =>
            match applyDelSecsLoop l2 delSecs with
            | .error e => .error e
            | .ok l3 => .ok (joinAll l3)

/-- Scenario A of the spec: set `simplest_config_possible.int_value`
to `42`. -/
example :
    applySet ["[simplest_config_possible]\n".toList, "int_value = 1\n".toList]
      ⟨parsePathWithIndices "simplest_config_possible.int_value".toList, "42".toList,
        .integer 42, none⟩ =
    .ok ["[simplest_config_possible]\n".toList, "int_value = 42\n".toList] := by decide

/-- Scenario C of the spec: `servers[1].host` touches only the second
`[[servers]]` block. -/
example :
    applySet
      ["[[servers]]\n".toList, "host = \"a\"\n".toList,
       "[[servers]]\n".toList, "host = \"b\"\n".toList]
      ⟨parsePathWithIndices "servers[1].host".toList, "\"x\"".toList,
        .string "x".toList, none⟩ =
    .ok ["[[servers]]\n".toList, "host = \"a\"\n".toList,
         "[[servers]]\n".toList, "host = \"x\"\n".toList] := by decide

/-- Ambiguity: `servers.host` with two `[[servers]]` blocks. -/
example :
    applySet
      ["[[servers]]\n".toList, "host = \"a\"\n".toList,
       "[[servers]]\n".toList, "host = \"b\"\n".toList]
      ⟨parsePathWithIndices "servers.host".toList, "\"x\"".toList,
        .string "x".toList, none⟩ = .error .ambiguous := by decide

/-! ## Lemmas about the Value-Boundary Scanner -/

/-- The scan state entering line `k` of a value scan that started at
`(sl, sc)`: thread `scanLineChars` line by line.  Past a line on which
the scanner stopped with a comment the chain just repeats the previous
state; such lines never occur before the scanner's result line. -/
def stChain (lines : List Str) (sl sc : Nat) : Nat → ScanSt
  | 0 => ScanSt.init
  | k + 1 =>
      if k + 1 ≤ sl then ScanSt.init
      else
        match scanLineChars (stChain lines sl sc k) (lineTextAt lines sl sc k) with
        | some s => s
        | none => stChain lines sl sc k

/-- Line `k` is one on which the value scan terminates: its character
scan either meets an unquoted `#` at both depths zero (the `none`
arm), or finishes the line with state Normal and both depths zero. -/
def stopsAt (lines : List Str) (sl sc k : Nat) : Bool :=
  match scanLineChars (stChain lines sl sc k) (lineTextAt lines sl sc k) with
  | none => true
  | some st2 => st2.closed

theorem stChain_start (lines : List Str) (sl sc : Nat) :
    stChain lines sl sc sl = ScanSt.init := by
  cases sl with
  | zero => rfl
  | succ k => simp [stChain]

theorem vbeAuxF_lt (lines : List Str) (sl sc : Nat) (hlen : 0 < lines.length) :
    ∀ fuel i st, vbeAuxF lines sl sc fuel i st < lines.length := by
  intro fuel
  induction fuel with
  | zero => intro i st; simp only [vbeAuxF]; omega
  | succ n ih =>
      intro i st
      simp only [vbeAuxF]
      by_cases hi : i < lines.length
      · simp only [hi, if_true]
        cases hsc : scanLineChars st (lineTextAt lines sl sc i) with
        | none => exact hi
        | some st2 =>
            by_cases hc : st2.closed
            · simp [hc]; exact hi
            · simp [hc]; exact ih (i + 1) st2
      · simp only [hi, if_false]; omega

theorem vbeAuxF_ge (lines : List Str) (sl sc : Nat) :
    ∀ fuel i st, i ≤ vbeAuxF lines sl sc fuel i st ∨
      vbeAuxF lines sl sc fuel i st = lines.length - 1 := by
  intro fuel
  induction fuel with
  | zero => intro i st; right; rfl
  | succ n ih =>
      intro i st
      by_cases hi : i < lines.length
      · cases hsc : scanLineChars st (lineTextAt lines sl sc i) with
        | none => left; simp [vbeAuxF, hi, hsc]
        | some st2 =>
            by_cases hc : st2.closed = true
            · left; simp [vbeAuxF, hi, hsc, hc]
            · have hres : vbeAuxF lines sl sc (n + 1) i st =
                  vbeAuxF lines sl sc n (i + 1) st2 := by
                simp [vbeAuxF, hi, hsc, hc]
              rw [hres]
              rcases ih (i + 1) st2 with h | h
              · left; omega
              · right; exact h
      · right; simp [vbeAuxF, hi]

theorem valueBlockEnd_eq (lines : List Str) (sl sc : Nat) :
    valueBlockEnd lines sl sc = vbeAuxF lines sl sc (lines.length - sl) sl ScanSt.init := rfl

/-- The shared characterisation of the outer scan loop: starting on
line `i` with the chained state, no line strictly before the result
is a stopping line, and the result line either stops the scan or is
the document's last line (the fall-off-the-end case). -/
theorem vbeAuxF_spec (lines : List Str) (sl sc : Nat) :
    ∀ fuel i st, sl ≤ i → st = stChain lines sl sc i → lines.length ≤ fuel + i →
      ((∀ k, i ≤ k → k < vbeAuxF lines sl sc fuel i st → stopsAt lines sl sc k = false) ∧
       (stopsAt lines sl sc (vbeAuxF lines sl sc fuel i st) = true ∨
        vbeAuxF lines sl sc fuel i st = lines.length - 1)) := by
  intro fuel
  induction fuel with
  | zero =>
      intro i st hsl hst hfe
      constructor
      · intro k hik hk
        simp only [vbeAuxF] at hk
        omega
      · right; rfl
  | succ n ih =>
      intro i st hsl hst hfe
      by_cases hi : i < lines.length
      · cases hsc : scanLineChars st (lineTextAt lines sl sc i) with
        | none =>
            have hres : vbeAuxF lines sl sc (n + 1) i st = i := by
              simp [vbeAuxF, hi, hsc]
            have hstop : stopsAt lines sl sc i = true := by
              simp only [stopsAt, ← hst, hsc]
            constructor
            · intro k hik hk; rw [hres] at hk; omega
            · left; rw [hres]; exact hstop
        | some st2 =>
            by_cases hc : st2.closed
            · have hres : vbeAuxF lines sl sc (n + 1) i st = i := by
                simp [vbeAuxF, hi, hsc, hc]
              have hstop : stopsAt lines sl sc i = true := by
                simp only [stopsAt, ← hst, hsc]; exact hc
              constructor
              · intro k hik hk; rw [hres] at hk; omega
              · left; rw [hres]; exact hstop
            · have hres : vbeAuxF lines sl sc (n + 1) i st =
                  vbeAuxF lines sl sc n (i + 1) st2 := by
                simp [vbeAuxF, hi, hsc, hc]
              have hnostop : stopsAt lines sl sc i = false := by
                simp only [stopsAt, ← hst, hsc]
                simpa using hc
              have hchain : st2 = stChain lines sl sc (i + 1) := by
                have hns : ¬ i + 1 ≤ sl := by omega
                simp only [stChain, hns, if_false, ← hst, hsc]
              have := ih (i + 1) st2 (by omega) hchain (by omega)
              constructor
              · intro k hik hk
                rw [hres] at hk
                rcases Nat.eq_or_lt_of_le hik with rfl | hik'
                · exact hnostop
                · exact this.1 k hik' hk
              · rw [hres]; exact this.2
      · have hres : vbeAuxF lines sl sc (n + 1) i st = lines.length - 1 := by
          simp [vbeAuxF, hi]
        constructor
        · intro k hik hk; rw [hres] at hk; omega
        · right; exact hres

/-- C5: For every document and every value start position, the
Value-Boundary Scanner reports the value as ending on exactly the
first line at whose end the scan state is Normal and both depths are
zero, or earlier on a line where an unquoted `#` is met at both
depths zero (both cases are `stopsAt`); while any string state is
open or either depth is positive at end of line the scan continues,
so no line before the result stops it, and if no line stops it the
result is the last line. -/
theorem valueBlockEnd_firstStop (lines : List Str) (sl sc : Nat) (h : sl < lines.length) :
    (∀ k, sl ≤ k → k < valueBlockEnd lines sl sc → stopsAt lines sl sc k = false) ∧
    (stopsAt lines sl sc (valueBlockEnd lines sl sc) = true ∨
     valueBlockEnd lines sl sc = lines.length - 1) :=
  vbeAuxF_spec lines sl sc (lines.length - sl) sl ScanSt.init (Nat.le_refl sl)
    (stChain_start lines sl sc).symm (by omega)

/-- Witness for C5 on a concrete three-line document with a multi-line
array value: the scan, started on line 0 after the `=`, must stop at
line 1 or fall off the end. -/
theorem valueBlockEnd_firstStop_witness :
    (∀ k, 0 ≤ k →
        k < valueBlockEnd ["v = [1,\n".toList, " 2] # x\n".toList, "b = 2\n".toList] 0 3 →
        stopsAt ["v = [1,\n".toList, " 2] # x\n".toList, "b = 2\n".toList] 0 3 k = false) ∧
    (stopsAt ["v = [1,\n".toList, " 2] # x\n".toList, "b = 2\n".toList] 0 3
        (valueBlockEnd ["v = [1,\n".toList, " 2] # x\n".toList, "b = 2\n".toList] 0 3) = true ∨
     valueBlockEnd ["v = [1,\n".toList, " 2] # x\n".toList, "b = 2\n".toList] 0 3 =
       ["v = [1,\n".toList, " 2] # x\n".toList, "b = 2\n".toList].length - 1) :=
  valueBlockEnd_firstStop ["v = [1,\n".toList, " 2] # x\n".toList, "b = 2\n".toList] 0 3
    (by decide)

/-- C10: the Value-Boundary Scanner is total (it is a Lean function)
and, for a start line inside a non-empty document, returns an
in-range line index no earlier than the start line; when no line in
range stops the scan (an unterminated string state or a positive
depth at every end of line), it returns the last line's index rather
than failing. -/
theorem valueBlockEnd_inRange (lines : List Str) (sl sc : Nat) (h : sl < lines.length) :
    valueBlockEnd lines sl sc < lines.length ∧
    sl ≤ valueBlockEnd lines sl sc ∧
    ((∀ k, sl ≤ k → k < lines.length → stopsAt lines sl sc k = false) →
      valueBlockEnd lines sl sc = lines.length - 1) := by
  have hlt := vbeAuxF_lt lines sl sc (by omega) (lines.length - sl) sl ScanSt.init
  have hge := vbeAuxF_ge lines sl sc (lines.length - sl) sl ScanSt.init
  have hspec := vbeAuxF_spec lines sl sc (lines.length - sl) sl ScanSt.init
    (Nat.le_refl sl) (stChain_start lines sl sc).symm (by omega)
  rw [valueBlockEnd_eq]
  refine ⟨hlt, ?_, ?_⟩
  · rcases hge with h1 | h1
    · exact h1
    · rw [h1]; omega
  · intro hall
    rcases hspec.2 with h1 | h1
    · exfalso
      have hge' : sl ≤ vbeAuxF lines sl sc (lines.length - sl) sl ScanSt.init := by
        rcases hge with h2 | h2
        · exact h2
        · rw [h2]; omega
      have := hall _ hge' hlt
      rw [this] at h1
      exact Bool.false_ne_true h1
    · exact h1

/-- Witness for C10 on a document ending inside an unclosed array:
the scanner returns the last line. -/
theorem valueBlockEnd_inRange_witness :
    valueBlockEnd ["v = [\n".toList, "1,\n".toList] 0 3 <
      ["v = [\n".toList, "1,\n".toList].length ∧
    0 ≤ valueBlockEnd ["v = [\n".toList, "1,\n".toList] 0 3 ∧
    ((∀ k, 0 ≤ k → k < ["v = [\n".toList, "1,\n".toList].length →
        stopsAt ["v = [\n".toList, "1,\n".toList] 0 3 k = false) →
      valueBlockEnd ["v = [\n".toList, "1,\n".toList] 0 3 =
        ["v = [\n".toList, "1,\n".toList].length - 1) :=
  valueBlockEnd_inRange ["v = [\n".toList, "1,\n".toList] 0 3 (by decide)

/-! ## Lemmas about the Assignment Locator and `apply_set` -/

/-- Every match collected by the locator's loop records the position
of its line's `=`, the parsed key segments, and the value end line
computed by the Value-Boundary Scanner; its line index is in range. -/
theorem collectMatchesF_mem (lines : List Str) (header : Header)
    (fp : List PathSegment) (endL : Int) :
    ∀ fuel i m, m ∈ collectMatchesF lines header fp endL fuel i →
      ∃ eqPos, findEqualsOutsideQuotes (lines.getD m.1 []) = some eqPos ∧
        parseAssignmentKeySegments ((lines.getD m.1 []).take eqPos) = some m.2.2 ∧
        m.2.1 = valueBlockEnd lines m.1 (eqPos + 1) ∧
        m.1 < lines.length := by
  intro fuel
  induction fuel with
  | zero => intro i m hm; simp [collectMatchesF] at hm
  | succ n ih =>
      intro i m hm
      simp only [collectMatchesF] at hm
      by_cases hgd : ((i : Int) ≤ endL ∧ i < lines.length)
      · rw [if_pos hgd] at hm
        by_cases hskip : ((pyLStrip (lines.getD i [])).isEmpty
            || (pyLStrip (lines.getD i [])).headD ' ' == '#'
            || (pyLStrip (lines.getD i [])).headD ' ' == '[') = true
        · rw [if_pos hskip] at hm; exact ih _ _ hm
        · rw [if_neg hskip] at hm
          cases heq : findEqualsOutsideQuotes (lines.getD i []) with
          | none => simp only [heq] at hm; exact ih _ _ hm
          | some eqPos =>
              simp only [heq] at hm
              cases hpk : parseAssignmentKeySegments ((lines.getD i []).take eqPos) with
              | none => simp only [hpk] at hm; exact ih _ _ hm
              | some ksegs =>
                  simp only [hpk] at hm
                  cases ksegs with
                  | nil => exact ih _ _ hm
                  | cons k0 krest =>
                      dsimp only at hm
                      by_cases hseg : segmentsEqual
                          (header.idSegments ++ (k0 :: krest).map (fun n => ⟨n, none⟩))
                          fp = true
                      · rw [if_pos hseg, List.mem_cons] at hm
                        rcases hm with rfl | hm
                        · exact ⟨eqPos, heq, hpk, rfl, hgd.2⟩
                        · exact ih _ _ hm
                      · rw [if_neg hseg] at hm; exact ih _ _ hm
      · rw [if_neg hgd] at hm; simp at hm

/-- An `.ok` of the assignment locator is the single collected match
of the resolved section. -/
theorem findAssignmentBlock_ok (lines : List Str) (headers : List Header)
    (fullPath : List PathSegment) (s e : Nat) (ks : List Str)
    (h : findAssignmentBlock lines headers fullPath = .ok (s, e, ks)) :
    ∃ header start endL,
      findSectionBlock headers fullPath.dropLast = .ok (header, start, endL) ∧
      (s, e, ks) ∈ collectMatches lines header fullPath endL (max start 0).toNat := by
  unfold findAssignmentBlock at h
  cases hlast : fullPath.getLast? with
  | none => simp [hlast] at h
  | some seg =>
      simp only [hlast] at h
      cases hsec : findSectionBlock headers fullPath.dropLast with
      | error e' => simp [hsec] at h
      | ok t =>
          obtain ⟨header, start, endL⟩ := t
          simp only [hsec] at h
          cases hms : collectMatches lines header fullPath endL (max start 0).toNat with
          | nil =>
              rw [hms] at h
              dsimp only at h
              split at h
              all_goals try split at h
              all_goals try split at h
              all_goals simp at h
          | cons m rest =>
              cases rest with
              | nil =>
                  rw [hms] at h
                  dsimp only at h
                  cases h
                  exact ⟨header, start, endL, rfl, by rw [hms]; exact List.mem_cons_self _ _⟩
              | cons m2 r2 =>
                  rw [hms] at h
                  dsimp only at h
                  simp at h

/-- The span an `.ok` of the locator reports is well-formed:
`s ≤ e < lines.length`, with `e` the Value-Boundary Scanner's answer
for the matched line. -/
theorem findAssignmentBlock_ok_bounds (lines : List Str) (headers : List Header)
    (fullPath : List PathSegment) (s e : Nat) (ks : List Str)
    (h : findAssignmentBlock lines headers fullPath = .ok (s, e, ks)) :
    s ≤ e ∧ e < lines.length := by
  obtain ⟨header, start, endL, -, hmem⟩ := findAssignmentBlock_ok lines headers fullPath s e ks h
  obtain ⟨eqPos, -, -, hvbe, hs⟩ := collectMatchesF_mem lines header fullPath endL _ _ _ hmem
  simp only at hvbe hs
  have hge := vbeAuxF_ge lines s (eqPos + 1) (lines.length - s) s ScanSt.init
  have hlt := vbeAuxF_lt lines s (eqPos + 1) (by omega) (lines.length - s) s ScanSt.init
  rw [hvbe, valueBlockEnd_eq]
  constructor
  · rcases hge with h1 | h1
    · exact h1
    · omega
  · exact hlt

/-- C2: when the path resolves to the assignment span `[s, e]`,
`apply_set` produces `take s ++ [new line] ++ drop (e+1)`: every line
before `s` is unchanged at its index, every line after `e` is
unchanged at its shifted index, the span is replaced by exactly one
line, and the length shrinks by exactly the span's extra lines. -/
theorem applySet_locality (lines : List Str) (p : SetPatch) (s e : Nat) (ks : List Str)
    (h : findAssignmentBlock lines (indexHeaders lines) p.path = .ok (s, e, ks)) :
    ∃ out nl, applySet lines p = .ok out ∧
      out = lines.take s ++ [nl] ++ lines.drop (e + 1) ∧
      out.length + (e - s) = lines.length ∧
      (∀ i, i < s → out[i]? = lines[i]?) ∧
      (∀ j, out[s + 1 + j]? = lines[e + 1 + j]?) ∧
      out[s]? = some nl := by
  obtain ⟨hse, helen⟩ := findAssignmentBlock_ok_bounds lines (indexHeaders lines) p.path s e ks h
  have happ : ∃ nl, applySet lines p = .ok (lines.take s ++ [nl] ++ lines.drop (e + 1)) := by
    simp only [applySet, h]
    cases p.comment with
    | none => exact ⟨_, rfl⟩
    | some c =>
        by_cases hce : c.isEmpty
        · simp only [hce, if_true]
          exact ⟨_, rfl⟩
        · simp only [hce, if_false]
          exact ⟨_, rfl⟩
  obtain ⟨nl, happ⟩ := happ
  have h1 : (lines.take s).length = s := by
    rw [List.length_take]
    omega
  refine ⟨_, nl, happ, rfl, ?_, ?_, ?_, ?_⟩
  · simp only [List.length_append, List.length_take, List.length_drop,
      List.length_cons, List.length_nil]
    omega
  · intro i hi
    rw [List.append_assoc, List.getElem?_append]
    rw [h1, if_pos hi, List.getElem?_take, if_pos hi]
  · intro j
    rw [List.append_assoc, List.getElem?_append_right (by rw [h1]; omega), h1]
    have h2 : s + 1 + j - s = 1 + j := by omega
    rw [h2, List.getElem?_append_right (by simp), List.length_singleton]
    have h3 : 1 + j - 1 = j := by omega
    rw [h3, List.getElem?_drop]
  · rw [List.append_assoc, List.getElem?_append_right (by rw [h1]), h1, Nat.sub_self,
      List.singleton_append]
    simp

/-- Witness for C2 on Scenario A's document: the locator resolves
`simplest_config_possible.int_value` to span `[1, 1]` and `apply_set`
leaves line 0 untouched. -/
theorem applySet_locality_witness :
    ∃ out nl,
      applySet ["[simplest_config_possible]\n".toList, "int_value = 1\n".toList]
        ⟨[⟨"simplest_config_possible".toList, none⟩, ⟨"int_value".toList, none⟩],
          "42".toList, .integer 42, none⟩ = .ok out ∧
      out = ["[simplest_config_possible]\n".toList, "int_value = 1\n".toList].take 1 ++
        [nl] ++ ["[simplest_config_possible]\n".toList, "int_value = 1\n".toList].drop 2 ∧
      out.length + (1 - 1) =
        ["[simplest_config_possible]\n".toList, "int_value = 1\n".toList].length ∧
      (∀ i, i < 1 → out[i]? =
        ["[simplest_config_possible]\n".toList, "int_value = 1\n".toList][i]?) ∧
      (∀ j, out[1 + 1 + j]? =
        ["[simplest_config_possible]\n".toList, "int_value = 1\n".toList][1 + 1 + j]?) ∧
      out[1]? = some nl :=
  applySet_locality ["[simplest_config_possible]\n".toList, "int_value = 1\n".toList]
    ⟨[⟨"simplest_config_possible".toList, none⟩, ⟨"int_value".toList, none⟩],
      "42".toList, .integer 42, none⟩ 1 1 ["int_value".toList] (by decide)

/-- A successful left-hand-side parse yields exactly the split tokens
with `_unquote_key` applied to each. -/
theorem parseAssignmentKeySegments_eq (lhs : Str) (ks : List Str)
    (h : parseAssignmentKeySegments lhs = some ks) :
    ks = (splitPathTokens (pyStrip lhs)).map unquoteKey := by
  simp only [parseAssignmentKeySegments] at h
  split at h
  · simp at h
  · simp at h
  · exact (Option.some.inj h).symm

/-- C3 (amended): when the locator finds exactly one matching
assignment line `s`, it returns the inclusive span `[s, e]` — `e`
computed by the Value-Boundary Scanner from the position right after
the line's unquoted `=` — together with the line's key tokens *after
unquoting* (quotes stripped, escapes interpreted), not the raw
tokens; `apply_set` re-emits them in canonical form. -/
theorem findAssignmentBlock_returns_unquoted (lines : List Str) (headers : List Header)
    (fullPath : List PathSegment) (s e : Nat) (ks : List Str)
    (h : findAssignmentBlock lines headers fullPath = .ok (s, e, ks)) :
    ∃ eqPos, findEqualsOutsideQuotes (lines.getD s []) = some eqPos ∧
      ks = (splitPathTokens (pyStrip ((lines.getD s []).take eqPos))).map unquoteKey ∧
      e = valueBlockEnd lines s (eqPos + 1) ∧
      s < lines.length := by
  obtain ⟨header, start, endL, -, hmem⟩ := findAssignmentBlock_ok lines headers fullPath s e ks h
  obtain ⟨eqPos, heq, hpk, hvbe, hs⟩ := collectMatchesF_mem lines header fullPath endL _ _ _ hmem
  exact ⟨eqPos, heq, parseAssignmentKeySegments_eq _ _ hpk, hvbe, hs⟩

/-- Witness for the amended C3 on a quoted-key assignment. -/
theorem findAssignmentBlock_returns_unquoted_witness :
    ∃ eqPos,
      findEqualsOutsideQuotes (["[t]\n".toList, "'my key' = 1\n".toList].getD 1 []) =
        some eqPos ∧
      ["my key".toList] =
        (splitPathTokens (pyStrip ((["[t]\n".toList, "'my key' = 1\n".toList].getD 1
          []).take eqPos))).map unquoteKey ∧
      1 = valueBlockEnd ["[t]\n".toList, "'my key' = 1\n".toList] 1 (eqPos + 1) ∧
      1 < ["[t]\n".toList, "'my key' = 1\n".toList].length :=
  findAssignmentBlock_returns_unquoted ["[t]\n".toList, "'my key' = 1\n".toList]
    (indexHeaders ["[t]\n".toList, "'my key' = 1\n".toList])
    [⟨"t".toList, none⟩, ⟨"my key".toList, none⟩] 1 1 ["my key".toList] (by decide)

/-- C3 counterexample: on the document `[t]` / `'my key' = 1`, the
line's raw (not-yet-unquoted) key token is `'my key'`, but the
locator returns the unquoted `my key` — the tokens are not preserved
as written. -/
theorem findAssignmentBlock_not_raw_tokens :
    findAssignmentBlock ["[t]\n".toList, "'my key' = 1\n".toList]
        (indexHeaders ["[t]\n".toList, "'my key' = 1\n".toList])
        [⟨"t".toList, none⟩, ⟨"my key".toList, none⟩] =
      .ok (1, 1, ["my key".toList]) ∧
    splitPathTokens (pyStrip (("'my key' = 1\n".toList).take 9)) = ["'my key'".toList] ∧
    ["my key".toList] ≠ ["'my key'".toList] := by decide

/-! ## Section resolution without an index (C4) -/

/-- C4: for a table path whose final segment carries no explicit
index, resolution first looks for an exact Table header with that
dotted path and uses it (the first one) if found; otherwise, among
ArrayOfTableOccurrence headers with that dotted path, zero matches is
PathNotFound, exactly one resolves to it, and two or more is
AmbiguousPath. -/
theorem findSectionBlock_no_index (headers : List Header) (target : List PathSegment)
    (seg : PathSegment) (hlast : target.getLast? = some seg) (hidx : seg.index = none) :
    (∀ h rest,
        headers.filter (fun h2 => h2.kind == .table && h2.path == target.map (·.name)) =
          h :: rest →
        findSectionBlock headers target = .ok (h, h.startLine + 1, h.endLine)) ∧
    (headers.filter (fun h2 => h2.kind == .table && h2.path == target.map (·.name)) = [] →
      (headers.filter (fun h2 => h2.kind == .aot && h2.path == target.map (·.name)) = [] →
        findSectionBlock headers target = .error .pathNotFound) ∧
      (∀ h, headers.filter
          (fun h2 => h2.kind == .aot && h2.path == target.map (·.name)) = [h] →
        findSectionBlock headers target = .ok (h, h.startLine + 1, h.endLine)) ∧
      (2 ≤ (headers.filter
          (fun h2 => h2.kind == .aot && h2.path == target.map (·.name))).length →
        findSectionBlock headers target = .error .ambiguous)) := by
  have hunf : findSectionBlock headers target =
      match headers.filter (fun h2 => h2.kind == .table && h2.path == target.map (·.name)) with
      | h :: _ => .ok (h, h.startLine + 1, h.endLine)
      | [] =>
          match headers.filter
              (fun h2 => h2.kind == .aot && h2.path == target.map (·.name)) with
          | [] => .error .pathNotFound
          | [h] => .ok (h, h.startLine + 1, h.endLine)
          | _ :: _ :: _ => .error .ambiguous := by
    simp only [findSectionBlock, hlast, hidx]
  constructor
  · intro h rest hft
    rw [hunf, hft]
  · intro hft
    refine ⟨?_, ?_, ?_⟩
    · intro haot
      rw [hunf, hft, haot]
    · intro h haot
      rw [hunf, hft, haot]
    · intro hlen
      cases haot : headers.filter
          (fun h2 => h2.kind == .aot && h2.path == target.map (·.name)) with
      | nil => rw [haot] at hlen; simp at hlen
      | cons a t =>
          cases t with
          | nil => rw [haot] at hlen; simp at hlen
          | cons b t2 => rw [hunf, hft, haot]

/-- Witness for C4: a document with two `[[group]]` occurrences and
the index-less path `group` resolves to `AmbiguousPath`. -/
theorem findSectionBlock_no_index_witness :
    findSectionBlock
      (indexHeaders ["[[group]]\n".toList, "f = 1\n".toList,
        "[[group]]\n".toList, "f = 2\n".toList])
      [⟨"group".toList, none⟩] = .error .ambiguous :=
  ((findSectionBlock_no_index
      (indexHeaders ["[[group]]\n".toList, "f = 1\n".toList,
        "[[group]]\n".toList, "f = 2\n".toList])
      [⟨"group".toList, none⟩] ⟨"group".toList, none⟩ (by decide) rfl).2
    (by decide)).2.2 (by decide)

/-! ## Replace-Top-Comment (C9) -/

/-- The source's leading scan counts exactly the maximal leading run
of blank/comment-only lines. -/
theorem leadRunLen_eq_takeWhile (ls : List Str) :
    leadRunLen ls = (ls.takeWhile (fun l => isCommentOrBlank l)).length := by
  induction ls with
  | nil => rfl
  | cons l rest ih =>
      by_cases hl : isCommentOrBlank l = true
      · simp [leadRunLen, List.takeWhile_cons, hl, ih]
      · simp [leadRunLen, List.takeWhile_cons, hl]

/-- C9: Replace-Top-Comment removes exactly the maximal leading run of
blank or comment-only lines and replaces it with one output line per
input line of the replacement text — a blank line becomes a bare `#`,
a non-blank line is prefixed with `# ` (after right-stripping) —
followed by exactly one blank separator line, leaving the remaining
original lines unchanged. -/
theorem replaceTopCommentBlock_spec (text newText : Str) :
    replaceTopCommentBlock text newText =
      joinAll (((splitlinesDrop newText).map renderCommentLine ++ ["\n".toList]) ++
        (splitlinesKeep text).drop
          ((splitlinesKeep text).takeWhile (fun l => isCommentOrBlank l)).length) ∧
    ((splitlinesDrop newText).map renderCommentLine).length =
      (splitlinesDrop newText).length ∧
    (∀ raw, raw ∈ splitlinesDrop newText →
      ((pyStrip raw).isEmpty = true → renderCommentLine raw = "#\n".toList) ∧
      ((pyStrip raw).isEmpty = false →
        ∃ t, renderCommentLine raw = '#' :: ' ' :: (t ++ ['\n']))) := by
  refine ⟨?_, List.length_map _ _, ?_⟩
  · simp only [replaceTopCommentBlock, leadRunLen_eq_takeWhile]
  · intro raw hmem
    constructor
    · intro hb
      simp [renderCommentLine, hb]
    · intro hb
      refine ⟨pyRStrip raw, ?_⟩
      simp [renderCommentLine, hb]

/-! ## Header end computation (C6) -/

/-- The start of the next header (or the document length for the last
one), as the end-computation pass reads it at position `k`. -/
def nextStartOf (lines : List Str) (hs : List Header) (k : Nat) : Int :=
  match hs[k + 1]? with
  | some h2 => h2.startLine
  | none => (lines.length : Int)

/-- The end-computation pass pointwise: every header keeps its fields
and receives the untrimmed end when it is the root, the trimmed end
otherwise. -/
theorem computeEnds_getElem? (lines : List Str) :
    ∀ (hs : List Header) (k : Nat),
      (computeEnds lines hs)[k]? = (hs[k]?).map fun h =>
        { h with endLine :=
            if h.kind = .root then nextStartOf lines hs k - 1
            else trimBack lines h.startLine (nextStartOf lines hs k - 1) } := by
  intro hs
  induction hs with
  | nil => intro k; simp [computeEnds]
  | cons h rest ih =>
      intro k
      cases k with
      | zero =>
          cases rest with
          | nil => simp [computeEnds, nextStartOf]
          | cons h2 r2 => simp [computeEnds, nextStartOf]
      | succ k' =>
          simp only [computeEnds, List.getElem?_cons_succ]
          rw [ih k']
          simp [nextStartOf, List.getElem?_cons_succ]

theorem trimBackF_le (lines : List Str) (start : Int) :
    ∀ fuel j, trimBackF lines start fuel j ≤ j := by
  intro fuel
  induction fuel with
  | zero => intro j; exact le_refl j
  | succ n ih =>
      intro j
      simp only [trimBackF]
      split
      · exact le_trans (ih (j - 1)) (by omega)
      · exact le_refl j

/-- Every line strictly between the walk's result and its starting
point is blank or comment-only: those are exactly the lines the walk
stepped past. -/
theorem trimBackF_interval (lines : List Str) (start : Int) :
    ∀ fuel j k, trimBackF lines start fuel j < k → k ≤ j →
      isCommentOrBlank (lines.getD k.toNat []) = true := by
  intro fuel
  induction fuel with
  | zero =>
      intro j k h1 h2
      simp only [trimBackF] at h1
      omega
  | succ n ih =>
      intro j k h1 h2
      simp only [trimBackF] at h1
      split at h1
      case isTrue hcond =>
          by_cases hk : k = j
          · subst hk; exact hcond.2
          · exact ih (j - 1) k h1 (by omega)
      case isFalse hcond => omega

/-- With the fuel the wrapper supplies, the walk stops either at
`start` or on a line that is not blank/comment-only. -/
theorem trimBackF_stop (lines : List Str) (start : Int) :
    ∀ fuel j, (j - start).toNat ≤ fuel → start < trimBackF lines start fuel j →
      isCommentOrBlank (lines.getD (trimBackF lines start fuel j).toNat []) = false := by
  intro fuel
  induction fuel with
  | zero =>
      intro j hf h
      simp only [trimBackF] at h ⊢
      omega
  | succ n ih =>
      intro j hf h
      by_cases hcond : (start < j ∧ isCommentOrBlank (lines.getD j.toNat []) = true)
      · simp only [trimBackF, if_pos hcond] at h ⊢
        exact ih (j - 1) (by omega) h
      · simp only [trimBackF, if_neg hcond] at h ⊢
        by_cases hcb : isCommentOrBlank (lines.getD j.toNat []) = true
        · exact absurd ⟨h, hcb⟩ hcond
        · rw [Bool.not_eq_true] at hcb; exact hcb

/-- The final list's next-start data agrees with the scanned list's:
the end-computation pass does not move headers. -/
theorem nextStartOf_computeEnds (lines : List Str) (hs : List Header) (k : Nat) :
    nextStartOf lines (computeEnds lines hs) k = nextStartOf lines hs k := by
  simp only [nextStartOf, computeEnds_getElem?]
  cases hs[k + 1]? <;> simp

/-- C6 (amended): each header's content end is the line immediately
before the next header's start (or document end for the last header);
for non-Root headers it is then walked backward past blank or
comment-only lines, so those trailing lines are not in the owned
span; the synthetic Root header's end is NOT walked backward. -/
theorem indexHeaders_endComputation (lines : List Str) (k : Nat) (h : Header)
    (hk : (indexHeaders lines)[k]? = some h) :
    (h.kind = .root → h.endLine = nextStartOf lines (indexHeaders lines) k - 1) ∧
    (h.kind ≠ .root →
      h.endLine = trimBack lines h.startLine (nextStartOf lines (indexHeaders lines) k - 1) ∧
      h.endLine ≤ nextStartOf lines (indexHeaders lines) k - 1 ∧
      (∀ j : Int, h.endLine < j → j ≤ nextStartOf lines (indexHeaders lines) k - 1 →
        isCommentOrBlank (lines.getD j.toNat []) = true)) := by
  have hk' := hk
  rw [show indexHeaders lines =
      computeEnds lines (rootHeaderInit :: indexHeadersPass1 lines 0 (fun _ => 0)) from rfl,
    computeEnds_getElem?] at hk'
  rw [show nextStartOf lines (indexHeaders lines) k =
      nextStartOf lines (rootHeaderInit :: indexHeadersPass1 lines 0 (fun _ => 0)) k from
    nextStartOf_computeEnds lines _ k]
  cases hh0 : (rootHeaderInit :: indexHeadersPass1 lines 0 (fun _ => 0))[k]? with
  | none => rw [hh0] at hk'; cases hk'
  | some h0 =>
      rw [hh0] at hk'
      simp only [Option.map_some'] at hk'
      cases hk'
      by_cases hroot : h0.kind = .root
      · constructor
        · intro _
          simp [hroot]
        · intro hnr
          exact absurd hroot hnr
      · constructor
        · intro hr
          exact absurd hr hroot
        · intro _
          rw [if_neg hroot]
          refine ⟨rfl, ?_, ?_⟩
          · exact trimBackF_le lines h0.startLine _ _
          · intro j hj1 hj2
            exact trimBackF_interval lines h0.startLine _ _ j hj1 hj2

/-- Witness for the amended C6: the `[t]` header of a concrete
document gets the trimmed end. -/
theorem indexHeaders_endComputation_witness :
    (HKind.table = HKind.root →
      (3 : Int) = nextStartOf ["a = 1\n".toList, "# trailing\n".toList, "[t]\n".toList,
        "b = 2\n".toList]
        (indexHeaders ["a = 1\n".toList, "# trailing\n".toList, "[t]\n".toList,
          "b = 2\n".toList]) 1 - 1) ∧
    (HKind.table ≠ HKind.root →
      (3 : Int) = trimBack ["a = 1\n".toList, "# trailing\n".toList, "[t]\n".toList,
          "b = 2\n".toList] 2
        (nextStartOf ["a = 1\n".toList, "# trailing\n".toList, "[t]\n".toList,
          "b = 2\n".toList]
          (indexHeaders ["a = 1\n".toList, "# trailing\n".toList, "[t]\n".toList,
            "b = 2\n".toList]) 1 - 1) ∧
      (3 : Int) ≤ nextStartOf ["a = 1\n".toList, "# trailing\n".toList, "[t]\n".toList,
          "b = 2\n".toList]
        (indexHeaders ["a = 1\n".toList, "# trailing\n".toList, "[t]\n".toList,
          "b = 2\n".toList]) 1 - 1 ∧
      (∀ j : Int, (3 : Int) < j →
        j ≤ nextStartOf ["a = 1\n".toList, "# trailing\n".toList, "[t]\n".toList,
            "b = 2\n".toList]
          (indexHeaders ["a = 1\n".toList, "# trailing\n".toList, "[t]\n".toList,
            "b = 2\n".toList]) 1 - 1 →
        isCommentOrBlank (["a = 1\n".toList, "# trailing\n".toList, "[t]\n".toList,
          "b = 2\n".toList].getD j.toNat []) = true)) :=
  indexHeaders_endComputation ["a = 1\n".toList, "# trailing\n".toList, "[t]\n".toList,
    "b = 2\n".toList] 1 ⟨.table, ["t".toList], none, 2, 3⟩ (by decide)

/-- C6 counterexample: in `a = 1` / `# trailing` / `[t]` / `b = 2`
the synthetic Root header's end stays at line 1 — a comment-only line
inside its owned span — although the claimed backward walk would have
moved it to line 0. -/
theorem indexHeaders_root_untrimmed_cex :
    (indexHeaders ["a = 1\n".toList, "# trailing\n".toList, "[t]\n".toList,
        "b = 2\n".toList])[0]? =
      some ⟨.root, [], none, -1, 1⟩ ∧
    isCommentOrBlank (["a = 1\n".toList, "# trailing\n".toList, "[t]\n".toList,
      "b = 2\n".toList].getD 1 []) = true ∧
    trimBack ["a = 1\n".toList, "# trailing\n".toList, "[t]\n".toList,
      "b = 2\n".toList] (-1) 1 = 0 ∧
    (1 : Int) ≠ 0 := by decide

/-! ## Header list invariants (C7) -/

/-- The scanning pass emits headers at strictly increasing line
numbers, all at or after the line it starts from. -/
theorem pass1_start_bounds :
    ∀ (lines : List Str) (i : Nat) (cnt : List Str → Nat),
      (∀ h ∈ indexHeadersPass1 lines i cnt, (i : Int) ≤ h.startLine) ∧
      List.Chain' (fun a b => a.startLine < b.startLine) (indexHeadersPass1 lines i cnt) := by
  intro lines
  induction lines with
  | nil => intro i cnt; exact ⟨by intro h hm; simp [indexHeadersPass1] at hm, by
      simp [indexHeadersPass1]⟩
  | cons line rest ih =>
      intro i cnt
      cases hp : parseHeaderLine line with
      | none =>
          simp only [indexHeadersPass1, hp]
          exact ⟨fun h hm => le_trans (by omega) ((ih (i + 1) cnt).1 h hm),
            (ih (i + 1) cnt).2⟩
      | some kp =>
          obtain ⟨kind, path⟩ := kp
          cases kind with
          | root =>
              -- `parseHeaderLine` never produces a root header
              exfalso
              simp only [parseHeaderLine] at hp
              split at hp
              · split at hp
                · cases hmap : (lazyBodyAot [] _) <;> rw [hmap] at hp <;> simp at hp
                · cases hmap : (lazyBodyTable [] _) <;> rw [hmap] at hp <;> simp at hp
              · simp at hp
          | aot =>
              simp only [indexHeadersPass1, hp]
              constructor
              · intro h hm
                rw [List.mem_cons] at hm
                rcases hm with rfl | hm
                · exact le_refl _
                · exact le_trans (by omega) ((ih (i + 1) _).1 h hm)
              · rw [List.chain'_cons']
                refine ⟨?_, (ih (i + 1) _).2⟩
                intro b hb
                have hbm := List.mem_of_mem_head? hb
                have := (ih (i + 1) _).1 b hbm
                simpa using by omega
          | table =>
              simp only [indexHeadersPass1, hp]
              constructor
              · intro h hm
                rw [List.mem_cons] at hm
                rcases hm with rfl | hm
                · exact le_refl _
                · exact le_trans (by omega) ((ih (i + 1) _).1 h hm)
              · rw [List.chain'_cons']
                refine ⟨?_, (ih (i + 1) _).2⟩
                intro b hb
                have hbm := List.mem_of_mem_head? hb
                have := (ih (i + 1) _).1 b hbm
                simpa using by omega

/-- The scanning pass never emits a root header. -/
theorem pass1_no_root :
    ∀ (lines : List Str) (i : Nat) (cnt : List Str → Nat) (h : Header),
      h ∈ indexHeadersPass1 lines i cnt → h.kind ≠ HKind.root := by
  intro lines
  induction lines with
  | nil => intro i cnt h hm; simp [indexHeadersPass1] at hm
  | cons line rest ih =>
      intro i cnt h hm
      cases hp : parseHeaderLine line with
      | none =>
          rw [indexHeadersPass1, hp] at hm
          exact ih (i + 1) cnt h hm
      | some kp =>
          obtain ⟨kind, path⟩ := kp
          cases kind with
          | root =>
              exfalso
              simp only [parseHeaderLine] at hp
              split at hp
              · split at hp
                · cases hmap : (lazyBodyAot [] _) <;> rw [hmap] at hp <;> simp at hp
                · cases hmap : (lazyBodyTable [] _) <;> rw [hmap] at hp <;> simp at hp
              · simp at hp
          | aot =>
              rw [indexHeadersPass1, hp] at hm
              rw [List.mem_cons] at hm
              rcases hm with rfl | hm
              · simp
              · exact ih (i + 1) _ h hm
          | table =>
              rw [indexHeadersPass1, hp] at hm
              rw [List.mem_cons] at hm
              rcases hm with rfl | hm
              · simp
              · exact ih (i + 1) _ h hm

/-- The scanning pass hands the array-of-tables headers of a fixed
dotted path the consecutive occurrence indices starting at the
counter's current value. -/
theorem pass1_aot_filter (p : List Str) :
    ∀ (lines : List Str) (i : Nat) (cnt : List Str → Nat),
      ((indexHeadersPass1 lines i cnt).filter
          (fun h => h.kind == HKind.aot && h.path == p)).map (·.aotIndex) =
        (List.range' (cnt p)
          (((indexHeadersPass1 lines i cnt).filter
            (fun h => h.kind == HKind.aot && h.path == p)).length)).map some := by
  intro lines
  induction lines with
  | nil => intro i cnt; rfl
  | cons line rest ih =>
      intro i cnt
      cases hp : parseHeaderLine line with
      | none => rw [indexHeadersPass1, hp]; exact ih (i + 1) cnt
      | some kp =>
          obtain ⟨kind, path⟩ := kp
          cases kind with
          | root =>
              exfalso
              simp only [parseHeaderLine] at hp
              split at hp
              · split at hp
                · cases hmap : (lazyBodyAot [] _) <;> rw [hmap] at hp <;> simp at hp
                · cases hmap : (lazyBodyTable [] _) <;> rw [hmap] at hp <;> simp at hp
              · simp at hp
          | table =>
              rw [indexHeadersPass1, hp]
              rw [List.filter_cons_of_neg (by simp)]
              exact ih (i + 1) cnt
          | aot =>
              rw [indexHeadersPass1, hp]
              by_cases hpq : path = p
              · subst hpq
                rw [List.filter_cons_of_pos (by simp)]
                have ihs := ih (i + 1) (fun k => if k = path then cnt path + 1 else cnt k)
                simp only [List.map_cons, List.length_cons, ihs, if_pos rfl]
                rfl
              · rw [List.filter_cons_of_neg (by simp [hpq])]
                have ihs := ih (i + 1) (fun k => if k = path then cnt path + 1 else cnt k)
                have hcnt : (if p = path then cnt path + 1 else cnt p) = cnt p :=
                  if_neg (fun hq => hpq hq.symm)
                rw [ihs, hcnt]

/-- The end-computation pass keeps every start line. -/
theorem computeEnds_map_start (lines : List Str) :
    ∀ hs : List Header, (computeEnds lines hs).map (·.startLine) = hs.map (·.startLine) := by
  intro hs
  induction hs with
  | nil => rfl
  | cons h rest ih => simp [computeEnds, ih]

/-- The end-computation pass keeps every header kind. -/
theorem computeEnds_map_kind (lines : List Str) :
    ∀ hs : List Header, (computeEnds lines hs).map (·.kind) = hs.map (·.kind) := by
  intro hs
  induction hs with
  | nil => rfl
  | cons h rest ih => simp [computeEnds, ih]

/-- The end-computation pass keeps the array-of-table occurrence data
of every fixed dotted path. -/
theorem computeEnds_filter_aot (lines : List Str) (p : List Str) :
    ∀ hs : List Header,
      ((computeEnds lines hs).filter
          (fun h => h.kind == HKind.aot && h.path == p)).map (·.aotIndex) =
        (hs.filter (fun h => h.kind == HKind.aot && h.path == p)).map (·.aotIndex) := by
  intro hs
  induction hs with
  | nil => rfl
  | cons h rest ih =>
      simp only [computeEnds, List.filter_cons]
      dsimp only
      by_cases hq : (h.kind == HKind.aot && h.path == p) = true
      · rw [if_pos hq, if_pos hq]
        simp only [List.map_cons, ih]
      · rw [if_neg hq, if_neg hq]
        exact ih

/-- C7: the Header Indexer's output is totally ordered by start line;
for each fixed dotted path the ArrayOfTableOccurrence headers carry
the strictly increasing 0-based occurrence indices `0, 1, 2, …` in
document order; and exactly one synthetic Root header exists — the
first element, at start line `-1`, preceding every real header. -/
theorem indexHeaders_invariants (lines : List Str) :
    List.Chain' (fun a b => a.startLine < b.startLine) (indexHeaders lines) ∧
    (∀ p, ((indexHeaders lines).filter
        (fun h => h.kind == HKind.aot && h.path == p)).map (·.aotIndex) =
      (List.range' 0 (((indexHeaders lines).filter
        (fun h => h.kind == HKind.aot && h.path == p)).length)).map some) ∧
    (∃ e rest, indexHeaders lines = ⟨.root, [], none, -1, e⟩ :: rest ∧
      (∀ h ∈ rest, h.kind ≠ .root) ∧ (∀ h ∈ rest, (0 : Int) ≤ h.startLine)) := by
  refine ⟨?_, ?_, ?_⟩
  · rw [← List.chain'_map (f := fun h : Header => h.startLine) (R := (· < ·)),
      show indexHeaders lines =
        computeEnds lines (rootHeaderInit :: indexHeadersPass1 lines 0 (fun _ => 0)) from rfl,
      computeEnds_map_start, List.map_cons, List.chain'_cons']
    constructor
    · intro b hb
      obtain ⟨h0, h0m, hk⟩ := List.mem_map.mp (List.mem_of_mem_head? hb)
      have := (pass1_start_bounds lines 0 (fun _ => 0)).1 h0 h0m
      rw [← hk]
      show rootHeaderInit.startLine < h0.startLine
      simp only [rootHeaderInit]
      omega
    · rw [List.chain'_map]
      exact (pass1_start_bounds lines 0 (fun _ => 0)).2
  · intro p
    have htrans := computeEnds_filter_aot lines p
      (rootHeaderInit :: indexHeadersPass1 lines 0 (fun _ => 0))
    have hlen : (((computeEnds lines
          (rootHeaderInit :: indexHeadersPass1 lines 0 (fun _ => 0))).filter
        (fun h => h.kind == HKind.aot && h.path == p)).length) =
        (((rootHeaderInit :: indexHeadersPass1 lines 0 (fun _ => 0)).filter
          (fun h => h.kind == HKind.aot && h.path == p)).length) := by
      have := congrArg List.length htrans
      simpa [List.length_map] using this
    rw [show indexHeaders lines =
        computeEnds lines (rootHeaderInit :: indexHeadersPass1 lines 0 (fun _ => 0)) from rfl,
      htrans, hlen, List.filter_cons_of_neg (by simp [rootHeaderInit])]
    exact pass1_aot_filter p lines 0 (fun _ => 0)
  · refine ⟨_, _, rfl, ?_, ?_⟩
    · intro h hm
      have hkmem : h.kind ∈ (computeEnds lines
          (indexHeadersPass1 lines 0 (fun _ => 0))).map (·.kind) :=
        List.mem_map_of_mem _ hm
      rw [computeEnds_map_kind] at hkmem
      obtain ⟨h0, h0m, hk⟩ := List.mem_map.mp hkmem
      rw [← hk]
      exact pass1_no_root lines 0 (fun _ => 0) h0 h0m
    · intro h hm
      have hsmem : h.startLine ∈ (computeEnds lines
          (indexHeadersPass1 lines 0 (fun _ => 0))).map (·.startLine) :=
        List.mem_map_of_mem _ hm
      rw [computeEnds_map_start] at hsmem
      obtain ⟨h0, h0m, hk⟩ := List.mem_map.mp hsmem
      rw [← hk]
      exact (pass1_start_bounds lines 0 (fun _ => 0)).1 h0 h0m

/-! ## Fail-fast of the whole run (C8) -/

theorem applySetsLoop_append (pv : Str → Option Value) :
    ∀ (s1 s2 : List Str) (lines : List Str),
      applySetsLoop pv lines (s1 ++ s2) =
        match applySetsLoop pv lines s1 with
        | .error e => .error e
        | .ok l => applySetsLoop pv l s2 := by
  intro s1
  induction s1 with
  | nil => intro s2 lines; rfl
  | cons spec rest ih =>
      intro s2 lines
      simp only [List.cons_append, applySetsLoop]
      cases setStep pv lines spec with
      | error e => rfl
      | ok l2 => exact ih s2 l2

theorem applyDelKeysLoop_append :
    ∀ (s1 s2 : List Str) (lines : List Str),
      applyDelKeysLoop lines (s1 ++ s2) =
        match applyDelKeysLoop lines s1 with
        | .error e => .error e
        | .ok l => applyDelKeysLoop l s2 := by
  intro s1
  induction s1 with
  | nil => intro s2 lines; rfl
  | cons pth rest ih =>
      intro s2 lines
      simp only [List.cons_append, applyDelKeysLoop]
      cases keyStep lines pth with
      | error e => rfl
      | ok l2 => exact ih s2 l2

theorem applyDelSecsLoop_append :
    ∀ (s1 s2 : List Str) (lines : List Str),
      applyDelSecsLoop lines (s1 ++ s2) =
        match applyDelSecsLoop lines s1 with
        | .error e => .error e
        | .ok l => applyDelSecsLoop l s2 := by
  intro s1
  induction s1 with
  | nil => intro s2 lines; rfl
  | cons pth rest ih =>
      intro s2 lines
      simp only [List.cons_append, applyDelSecsLoop]
      cases secStep lines pth with
      | error e => rfl
      | ok l2 => exact ih s2 l2

/-- C8: the run writes output exactly when every requested operation
succeeds in sequence — and when any single operation fails (malformed
payload, PathNotFound, AmbiguousPath, root-deletion refusal), the run
aborts with that error no matter what operations follow, discarding
the document the earlier successful operations had produced. -/
theorem runPatch_failFast (pv : Str → Option Value) (vd : Str → Bool) (text : Str)
    (topComment : Option Str) :
    (∀ sets delKeys delSecs out,
      runPatch pv vd text sets delKeys delSecs topComment = .ok out ↔
        (vd text = true ∧ ∃ l1 l2 l3,
          applySetsLoop pv (startLines text topComment) sets = .ok l1 ∧
          applyDelKeysLoop l1 delKeys = .ok l2 ∧
          applyDelSecsLoop l2 delSecs = .ok l3 ∧
          out = joinAll l3)) ∧
    (∀ sets1 spec sets2 delKeys delSecs mid e, vd text = true →
      applySetsLoop pv (startLines text topComment) sets1 = .ok mid →
      setStep pv mid spec = .error e →
      runPatch pv vd text (sets1 ++ spec :: sets2) delKeys delSecs topComment = .error e) ∧
    (∀ sets dks1 pth dks2 delSecs l1 mid e, vd text = true →
      applySetsLoop pv (startLines text topComment) sets = .ok l1 →
      applyDelKeysLoop l1 dks1 = .ok mid →
      keyStep mid pth = .error e →
      runPatch pv vd text sets (dks1 ++ pth :: dks2) delSecs topComment = .error e) ∧
    (∀ sets delKeys dss1 pth dss2 l1 l2 mid e, vd text = true →
      applySetsLoop pv (startLines text topComment) sets = .ok l1 →
      applyDelKeysLoop l1 delKeys = .ok l2 →
      applyDelSecsLoop l2 dss1 = .ok mid →
      secStep mid pth = .error e →
      runPatch pv vd text sets delKeys (dss1 ++ pth :: dss2) topComment = .error e) := by
  refine ⟨?_, ?_, ?_, ?_⟩
  · intro sets delKeys delSecs out
    by_cases hvd : vd text = true
    · simp only [runPatch, hvd, Bool.not_true, Bool.false_eq_true, if_false]
      cases h1 : applySetsLoop pv (startLines text topComment) sets with
      | error e1 => simp [h1]
      | ok l1 =>
          cases h2 : applyDelKeysLoop l1 delKeys with
          | error e2 => simp [h1, h2]
          | ok l2 =>
              cases h3 : applyDelSecsLoop l2 delSecs with
              | error e3 => simp [h1, h2, h3]
              | ok l3 =>
                  constructor
                  · intro hout
                    have hout' : (Except.ok (joinAll l3) : Except RunErr Str) =
                        Except.ok out := by
                      simpa only [h1, h2, h3] using hout
                    exact ⟨trivial, l1, l2, l3, rfl, h2, h3, (Except.ok.inj hout').symm⟩
                  · rintro ⟨-, x, x1, x2, hx, hx1, hx2, hout⟩
                    obtain rfl : l1 = x := Except.ok.inj hx
                    obtain rfl : l2 = x1 := Except.ok.inj (h2.symm.trans hx1)
                    obtain rfl : l3 = x2 := Except.ok.inj (h3.symm.trans hx2)
                    simp only [h2, h3, hout]
    · have hvd' : vd text = false := by
        rw [← Bool.not_eq_true]; exact hvd
      simp [runPatch, hvd', hvd]
  · intro sets1 spec sets2 delKeys delSecs mid e hvd h1 hstep
    simp only [runPatch, hvd, Bool.not_true, Bool.false_eq_true, if_false,
      applySetsLoop_append, h1, applySetsLoop, hstep]
  · intro sets dks1 pth dks2 delSecs l1 mid e hvd h1 h2 hstep
    simp only [runPatch, hvd, Bool.not_true, Bool.false_eq_true, if_false, h1,
      applyDelKeysLoop_append, h2, applyDelKeysLoop, hstep]
  · intro sets delKeys dss1 pth dss2 l1 l2 mid e hvd h1 h2 h3 hstep
    simp only [runPatch, hvd, Bool.not_true, Bool.false_eq_true, if_false, h1, h2,
      applyDelSecsLoop_append, h3, applyDelSecsLoop, hstep]

/-- Witness for C8: with a permissive validator and a trivial value
parser, a single `--set zz = 1` against `a = 1` fails with
PathNotFound and the whole run returns that error, producing no
output text. -/
theorem runPatch_failFast_witness :
    runPatch (fun _ => some (.integer 7)) (fun _ => true) "a = 1\n".toList
      ([] ++ "zz = 1".toList :: []) [] [] none = .error .pathNotFound :=
  (runPatch_failFast (fun _ => some (.integer 7)) (fun _ => true) "a = 1\n".toList none).2.1
    [] "zz = 1".toList [] [] [] (startLines "a = 1\n".toList none) .pathNotFound rfl rfl
    (by decide)

/-! ## The formatter is not a left inverse on control characters (C1) -/

/-- C1: the delegated parser can produce a string containing U+0001
(from the literal `"\u0001"`), but `format_toml_value` emits that
character raw — `_escape_string` escapes only backslash, quote,
backspace, tab, newline and carriage return — and a standard TOML
parser rejects an unescaped control character in a basic string, so
re-parsing the formatter's output fails instead of returning an equal
value.  For contrast, a string containing only the escaped characters
(quote, backslash, newline) does round-trip. -/
theorem formatTomlValue_controlChar_not_reparseable :
    parseTomlBasicString ("\"\\u0001\"".toList) = some ['\x01'] ∧
    formatTomlValue (.string ['\x01']) = ['"', '\x01', '"'] ∧
    parseTomlBasicString (formatTomlValue (.string ['\x01'])) = none ∧
    parseTomlBasicString (formatTomlValue (.string "a\"b\\c\nd".toList)) =
      some "a\"b\\c\nd".toList := by decide

end PatchToml
